import Mathlib

/-!
Verification development for the `mapper` script (src/mapper/mapper.py).

The script orchestrates a Bedrock→Java Minecraft world conversion and drives
the BlueMap renderer: it resolves a configuration from CLI arguments, validates
the environment, converts the world (through the external Amulet library),
patches BlueMap's text configuration files with regular expressions, and runs a
periodic refresh loop that stops and restarts a background web-server process.

This file contains a shallow embedding of the script's data model and
operations, followed by theorems about them.  Python `pathlib.Path` values are
modelled by `PyPath` (an absolute flag plus a component list), text is modelled
by `List Char`, and the regular-expression rewrites performed by the script are
modelled by explicit, executable scanners that follow the semantics of the
concrete patterns used in the source (including multi-line `(?m)` anchor
behaviour and greedy matching).  Side-effecting control flow (directory
creation, validation, the conversion's `try/finally` cleanup, process stop and
the refresh loop) is modelled by pure functions over explicit environment
records that return event traces and outcomes.
-/

/-! ## Path model

Models `pathlib.Path`: a path is an `absolute` flag plus a list of components.
Componentwise operations mirror `pathlib` semantics: `name` is the last
component (or "" for a root/empty path), `parent` drops the last component,
`/` appends a component.  `"."` components are assumed already dropped, as
`pathlib.Path`'s constructor does.
-/

structure PyPath where
  absolute : Bool
  parts : List String
deriving DecidableEq, Repr

namespace PyPath

/-- `Path.name`: the final component, or `""` when there is none. -/
def name (p : PyPath) : String := p.parts.getLast?.getD ""

/-- `Path.parent`: drop the final component (the root is its own parent). -/
def parent (p : PyPath) : PyPath := ⟨p.absolute, p.parts.dropLast⟩

/-- `path / component`. -/
def child (p : PyPath) (s : String) : PyPath := ⟨p.absolute, p.parts ++ [s]⟩

/-- `Path.expanduser`: replace a leading `~` component by the home path.
`~user` forms (which consult the user database) are outside the model and are
excluded by hypothesis in the theorems that use `expanduser`. -/
def expanduser (home : PyPath) (p : PyPath) : PyPath :=
  match p.absolute, p.parts with
  | false, s :: rest => if s = "~" then ⟨home.absolute, home.parts ++ rest⟩ else p
  | _, _ => p

/-- Component-list normalization performed by `Path.resolve`:
`..` removes the preceding component (symlinks are outside the model). -/
def resolveParts (l : List String) : List String :=
  l.foldl (fun acc s => if s = ".." then acc.dropLast else acc ++ [s]) []

/-- `(cwd / p).resolve()` for a relative `p`, with `cwd` absolute. -/
def resolveFrom (cwd : PyPath) (p : PyPath) : PyPath :=
  ⟨true, resolveParts (cwd.parts ++ p.parts)⟩

/-- `str(path)` rendering (used when paths are interpolated into config text). -/
def render (p : PyPath) : String :=
  if p.absolute then "/" ++ String.intercalate "/" p.parts
  else if p.parts = [] then "." else String.intercalate "/" p.parts

end PyPath

/-- `normalize_output_path` (mapper.py:51-58): expand a home reference, make
the path absolute by resolving it against the current working directory when
it is relative, and append a final `webroot` component unless the path already
ends in one. -/
def normalize_output_path (home cwd : PyPath) (path : PyPath) : PyPath :=
  let normalized := PyPath.expanduser home path
  let normalized :=
    if normalized.absolute then normalized else PyPath.resolveFrom cwd normalized
  if normalized.name ≠ "webroot" then normalized.child "webroot" else normalized

/-! ## Configuration resolution (`main`, mapper.py:588-604) -/

/-- The global settings record (mapper.py:19-28).  `render_threads` and
`render_interval` are Python ints; `ambient_light` is a float and is modelled
by its rendered decimal string, since the script only ever interpolates it
into config text. -/
structure GlobalConfig where
  bedrock_world_dir : PyPath
  java_world_dir : PyPath
  output_path : PyPath
  config_dir : PyPath
  bluemap_jar : PyPath
  render_threads : Nat
  render_interval : Int
  ambient_light : String
deriving DecidableEq, Repr

/-- Parsed command-line arguments after `argparse` (defaults and environment
fallbacks already folded in); `java_world_dir` is `None` when neither the flag
nor the environment variable supplied it. -/
structure CliArgs where
  bedrock_world_dir : PyPath
  java_world_dir : Option PyPath
  output_path : PyPath
  config_dir : PyPath
  bluemap_jar : PyPath
  render_threads : Nat
  render_interval : Int
  ambient_light : String

/-- The configuration computed by `main` (mapper.py:590-604): the output path
is normalized, and when no converted-world path was supplied one is derived as
`output_path.parent / ("java_" + bedrock_world_dir.name)` — note that
`output_path` here is the already-normalized path. -/
def resolveConfig (home cwd : PyPath) (a : CliArgs) : GlobalConfig :=
  let output_path := normalize_output_path home cwd a.output_path
  let java_world_dir :=
    a.java_world_dir.getD (output_path.parent.child ("java_" ++ a.bedrock_world_dir.name))
  { bedrock_world_dir := a.bedrock_world_dir
    java_world_dir := java_world_dir
    output_path := output_path
    config_dir := a.config_dir
    bluemap_jar := a.bluemap_jar
    render_threads := a.render_threads
    render_interval := a.render_interval
    ambient_light := a.ambient_light }

/-! ## Theorems: C5 (output-path normalization) and C1 (derived java path) -/

/-- Inputs whose leading component is a `~user` home reference (other than the
plain `~`) fall outside the `expanduser` model and are excluded. -/
def noUserTilde (p : PyPath) : Prop :=
  ∀ s, p.parts.head? = some s → s.toList.head? = some '~' → s = "~"

/-- The final `webroot`-appending step keeps the absolute flag. -/
theorem webroot_step_absolute (q : PyPath) :
    (if q.name ≠ "webroot" then q.child "webroot" else q).absolute = q.absolute := by
  by_cases h : q.name = "webroot" <;> simp [h, PyPath.child]

/-- The final `webroot`-appending step always yields name `"webroot"`. -/
theorem webroot_step_name (q : PyPath) :
    (if q.name ≠ "webroot" then q.child "webroot" else q).name = "webroot" := by
  by_cases h : q.name = "webroot"
  · simp [h]
  · simp only [PyPath.name] at h ⊢
    simp only [ne_eq, h, not_false_iff, if_true, PyPath.child]
    simp [List.getLast?_concat]

/-- `normalize_output_path` unfolded to its absolute base followed by the
`webroot` step. -/
theorem normalize_output_path_eq (home cwd p : PyPath) :
    normalize_output_path home cwd p =
      (let q := PyPath.expanduser home p
       let q := if q.absolute then q else PyPath.resolveFrom cwd q
       if q.name ≠ "webroot" then q.child "webroot" else q) := rfl

/-- The absolute base of normalization is indeed absolute. -/
theorem normalize_base_absolute (home cwd p : PyPath) :
    (let q := PyPath.expanduser home p
     if q.absolute then q else PyPath.resolveFrom cwd q).absolute = true := by
  by_cases h : (PyPath.expanduser home p).absolute <;> simp [h, PyPath.resolveFrom]

/-- **C5.** For every input path (excluding unmodelled `~user` references), the
normalized output path is absolute and its final component is `"webroot"`,
the component is appended only when the path does not already end in it, and
normalization is idempotent. -/
theorem normalize_output_path_spec (home cwd : PyPath) (p : PyPath)
    (hp : noUserTilde p) :
    (normalize_output_path home cwd p).absolute = true ∧
    (normalize_output_path home cwd p).name = "webroot" ∧
    (let q := PyPath.expanduser home p
     let q := if q.absolute then q else PyPath.resolveFrom cwd q
     normalize_output_path home cwd p =
       if q.name ≠ "webroot" then q.child "webroot" else q) ∧
    normalize_output_path home cwd (normalize_output_path home cwd p) =
      normalize_output_path home cwd p := by
  clear hp
  have habs : (normalize_output_path home cwd p).absolute = true := by
    rw [normalize_output_path_eq]
    have h1 := webroot_step_absolute
      (if (PyPath.expanduser home p).absolute then PyPath.expanduser home p
        else PyPath.resolveFrom cwd (PyPath.expanduser home p))
    have h2 := normalize_base_absolute home cwd p
    simp only at h1 h2 ⊢
    rw [h1, h2]
  have hname : (normalize_output_path home cwd p).name = "webroot" := by
    rw [normalize_output_path_eq]
    exact webroot_step_name _
  refine ⟨habs, hname, rfl, ?_⟩
  have hexp : PyPath.expanduser home (normalize_output_path home cwd p)
      = normalize_output_path home cwd p := by
    unfold PyPath.expanduser
    rcases h : (normalize_output_path home cwd p).absolute with _ | _
    · rw [habs] at h; cases h
    · cases hparts : (normalize_output_path home cwd p).parts <;> simp
  rw [normalize_output_path_eq home cwd (normalize_output_path home cwd p)]
  simp only [hexp, habs, if_true, hname]
  simp

/-- Witness for C5 at a concrete input. -/
theorem normalize_output_path_spec_witness :
    noUserTilde ⟨true, ["data", "out"]⟩ ∧
    (normalize_output_path ⟨true, ["root"]⟩ ⟨true, ["data"]⟩ ⟨true, ["data", "out"]⟩).name
      = "webroot" := by
  have hnu : noUserTilde ⟨true, ["data", "out"]⟩ := by
    intro s hs h
    obtain rfl := Option.some.inj hs
    exact absurd h (by decide)
  exact ⟨hnu, (normalize_output_path_spec ⟨true, ["root"]⟩ ⟨true, ["data"]⟩
    ⟨true, ["data", "out"]⟩ hnu).2.1⟩

/-- The concrete arguments of the spec's worked example: source world directory
named `world`, supplied output path `/data/out`, no converted-world path. -/
def exampleArgs : CliArgs :=
  { bedrock_world_dir := ⟨false, ["world"]⟩
    java_world_dir := none
    output_path := ⟨true, ["data", "out"]⟩
    config_dir := ⟨true, ["opt", "bluemap", "config"]⟩
    bluemap_jar := ⟨true, ["opt", "bluemap", "BlueMap-cli.jar"]⟩
    render_threads := 2
    render_interval := 600
    ambient_light := "1.0" }

/-- **C1, counterexample.** On the spec's own example (source world `world`,
output path `/data/out`), the code derives the converted-world path
`/data/out/java_world` — the parent of the *normalized* output path
`/data/out/webroot` joined with `java_world` — and not `/data/java_world` as
the claim states. -/
theorem derived_java_dir_counterexample :
    (resolveConfig ⟨true, ["root"]⟩ ⟨true, ["srv"]⟩ exampleArgs).output_path
        = ⟨true, ["data", "out", "webroot"]⟩ ∧
    (resolveConfig ⟨true, ["root"]⟩ ⟨true, ["srv"]⟩ exampleArgs).java_world_dir
        ≠ ⟨true, ["data", "java_world"]⟩ := by
  constructor <;> decide

/-- **C1, amended.** When no converted-world path is supplied, the derived
path is the parent of the *normalized* output path joined with
`java_` + source-world name; for source world `world` and output `/data/out`
(normalizing to `/data/out/webroot`) this yields `/data/out/java_world`. -/
theorem derived_java_dir_amended (home cwd : PyPath) (a : CliArgs)
    (h : a.java_world_dir = none) :
    (resolveConfig home cwd a).java_world_dir
      = (normalize_output_path home cwd a.output_path).parent.child
          ("java_" ++ a.bedrock_world_dir.name) ∧
    (resolveConfig ⟨true, ["root"]⟩ ⟨true, ["srv"]⟩ exampleArgs).java_world_dir
      = ⟨true, ["data", "out", "java_world"]⟩ := by
  constructor
  · simp [resolveConfig, h]
  · decide

/-- Witness for C1 (amended): the hypothesis holds at the example arguments. -/
theorem derived_java_dir_amended_witness :
    exampleArgs.java_world_dir = none ∧
    (resolveConfig ⟨true, ["root"]⟩ ⟨true, ["srv"]⟩ exampleArgs).java_world_dir
      = ⟨true, ["data", "out", "java_world"]⟩ :=
  ⟨rfl, (derived_java_dir_amended ⟨true, ["root"]⟩ ⟨true, ["srv"]⟩ exampleArgs rfl).2⟩

/-! ## Renderer child-process model and `stop_bluemap_process`
(mapper.py:464-480)

A live child process is characterised by how it responds to signals:
`exited` is whether `poll()` reports it already terminated, and the two
timing fields say whether it exits within the 30-time-unit wait after
`terminate()` and within the 10-time-unit wait after `kill()`.
-/

structure ChildProc where
  exited : Bool
  diesWithin30AfterTerm : Bool
  diesWithin10AfterKill : Bool
deriving DecidableEq, Repr

/-- Observable actions taken on the child process by the stop routine. -/
inductive StopAct where
  | terminate
  | wait (timeout : Nat)
  | kill
deriving DecidableEq, Repr

/-- `stop_bluemap_process`: no-op on a `None` handle or an already-exited
process; otherwise `terminate()` then `wait(timeout=30)`; on timeout,
`kill()` then `wait(timeout=10)`.  Returns the action trace and whether a
`TimeoutExpired` exception escapes (which happens exactly when the process
survives both waits; nothing in the function catches the second wait's
timeout). -/
def stop_bluemap_process (process : Option ChildProc) : List StopAct × Bool :=
  match process with
  | none => ([], false)
  | some p =>
    if p.exited then ([], false)
    else if p.diesWithin30AfterTerm then
      ([.terminate, .wait 30], false)
    else if p.diesWithin10AfterKill then
      ([.terminate, .wait 30, .kill, .wait 10], false)
    else
      ([.terminate, .wait 30, .kill, .wait 10], true)

/-- **C8.** Stopping a null or already-exited handle performs no action and
raises nothing; a live process is sent `terminate` and waited on for up to 30
time-units; `kill` (followed by a wait of up to 10 time-units) is performed
exactly when the process does not exit within the graceful wait. -/
theorem stop_bluemap_process_spec (p : ChildProc) :
    stop_bluemap_process none = ([], false) ∧
    (p.exited = true → stop_bluemap_process (some p) = ([], false)) ∧
    (p.exited = false →
      (stop_bluemap_process (some p)).1.take 2 = [.terminate, .wait 30]) ∧
    (p.exited = false →
      (StopAct.kill ∈ (stop_bluemap_process (some p)).1 ↔
        p.diesWithin30AfterTerm = false)) ∧
    (p.exited = false → p.diesWithin30AfterTerm = false →
      stop_bluemap_process (some p)
        = ([.terminate, .wait 30, .kill, .wait 10], !p.diesWithin10AfterKill)) := by
  obtain ⟨e, d30, d10⟩ := p
  cases e <;> cases d30 <;> cases d10 <;>
    refine ⟨rfl, ?_, ?_, ?_, ?_⟩ <;> intros <;> simp_all <;> decide

/-- Witness for C8 at a concrete live, term-responsive process. -/
theorem stop_bluemap_process_spec_witness :
    (ChildProc.mk false true true).exited = false ∧
    (StopAct.kill ∈ (stop_bluemap_process (some ⟨false, true, true⟩)).1 ↔
      (ChildProc.mk false true true).diesWithin30AfterTerm = false) :=
  ⟨rfl, (stop_bluemap_process_spec ⟨false, true, true⟩).2.2.2.1 rfl⟩

/-! ## The scheduled-refresh loop body (mapper.py:512-530)

Each timer tick does, in order: sleep; `stop_bluemap_process` on the current
handle (NOT inside any `try`); clear the handle; run the refresh cycle inside
`try/except Exception` (failure logged, loop continues); restart the
web-server inside `try/except Exception` (failure logged, handle stays
`None`).  An exception escaping `stop_bluemap_process` propagates out of the
`while` loop and terminates the service.
-/

/-- Nondeterministic outcomes of one tick's external calls. -/
structure TickEnv where
  cycleFails : Bool
  startFails : Bool
  newProc : ChildProc

/-- Events logged during a tick (the per-cycle `except` handlers log and
continue). -/
inductive TickEv where
  | sleep
  | logCycleError
  | logStartError
deriving DecidableEq, Repr

/-- One iteration of the `while True` loop (mapper.py:512-530).
`Except.error ()` means an exception escaped the loop body (terminating the
service); `Except.ok h` is the handle carried to the next tick. -/
def refresh_tick (process : Option ChildProc) (env : TickEnv) :
    List TickEv × Except Unit (Option ChildProc) :=
  let stopRes := stop_bluemap_process process
  if stopRes.2 then
    ([TickEv.sleep], .error ())
  else
    let evs := [TickEv.sleep]
      ++ (if env.cycleFails then [TickEv.logCycleError] else [])
      ++ (if env.startFails then [TickEv.logStartError] else [])
    (evs, .ok (if env.startFails then none else some env.newProc))

/-- The loop run over a list of tick environments, starting from the handle
produced by the initial (pre-loop) web-server start. -/
def run_refresh_loop (process : Option ChildProc) : List TickEnv → Except Unit (Option ChildProc)
  | [] => .ok process
  | env :: rest =>
    match (refresh_tick process env).2 with
    | .error () => .error ()
    | .ok p' => run_refresh_loop p' rest

/-- **C3, counterexample.** A failure in the tick's stop-server step *does*
terminate the loop: with a live web-server process that survives both the
graceful and the forced wait, the tick's `stop_bluemap_process` call raises
and the exception escapes the loop (the stop call is not inside the per-cycle
`try` blocks).  This refutes the claim that no failure during the
stop/run-cycle/restart steps terminates the process. -/
theorem refresh_tick_stop_failure_terminates :
    (refresh_tick (some ⟨false, false, false⟩)
        ⟨false, false, ⟨false, true, true⟩⟩).2 = .error () ∧
    run_refresh_loop (some ⟨false, false, false⟩)
        [⟨false, false, ⟨false, true, true⟩⟩] = .error () := by
  constructor <;> rfl

/-- **C3, amended.** Failures in the run-cycle and restart-server steps never
terminate the loop: whenever every stop call returns normally — in particular
whenever every handle the loop ever holds is stoppable (each started process
exits within one of the two waits) — the loop survives every tick regardless
of cycle and web-server-start failures, logging each cycle failure.  -/
theorem refresh_loop_survives_cycle_failures (p0 : Option ChildProc) (envs : List TickEnv)
    (hp0 : ∀ q, p0 = some q → q.diesWithin30AfterTerm = true ∨ q.diesWithin10AfterKill = true)
    (henv : ∀ e ∈ envs, e.newProc.diesWithin30AfterTerm = true ∨
      e.newProc.diesWithin10AfterKill = true) :
    (∃ pf, run_refresh_loop p0 envs = .ok pf) ∧
    (∀ e p, (∀ q, p = some q → q.diesWithin30AfterTerm = true ∨
        q.diesWithin10AfterKill = true) → e ∈ envs → e.cycleFails = true →
      TickEv.logCycleError ∈ (refresh_tick p e).1 ∧
        ∃ p', (refresh_tick p e).2 = .ok p') := by
  have hstop : ∀ p, (∀ q, p = some q → q.diesWithin30AfterTerm = true ∨
      q.diesWithin10AfterKill = true) → (stop_bluemap_process p).2 = false := by
    intro p hq
    match p with
    | none => rfl
    | some q =>
      obtain ⟨e, d30, d10⟩ := q
      cases e
      · cases d30
        · cases d10
          · rcases hq ⟨false, false, false⟩ rfl with h | h <;> exact absurd h (by decide)
          · rfl
        · rfl
      · rfl
  constructor
  · induction envs generalizing p0 with
    | nil => exact ⟨p0, rfl⟩
    | cons e rest ih =>
      have hs := hstop p0 hp0
      have hq' : ∀ q, (if e.startFails then none else some e.newProc) = some q →
          q.diesWithin30AfterTerm = true ∨ q.diesWithin10AfterKill = true := by
        intro q hq
        by_cases hsf : e.startFails <;> simp [hsf] at hq
        exact hq ▸ henv e (by simp)
      have hrest : ∀ e' ∈ rest, e'.newProc.diesWithin30AfterTerm = true ∨
          e'.newProc.diesWithin10AfterKill = true := by
        intro e' he'; exact henv e' (by simp [he'])
      obtain ⟨pf, hpf⟩ := ih _ hq' hrest
      refine ⟨pf, ?_⟩
      unfold run_refresh_loop refresh_tick
      simp only [hs, Bool.false_eq_true, if_false]
      exact hpf
  · intro e p hps he hcf
    have hs := hstop p hps
    unfold refresh_tick
    simp only [hs, Bool.false_eq_true, if_false, hcf, if_true]
    refine ⟨?_, _, rfl⟩
    simp

/-- Witness for C3 (amended) at a concrete run: a two-tick schedule in which
the first cycle fails and the second succeeds; the loop reaches the end and
the web-server is running again. -/
theorem refresh_loop_survives_cycle_failures_witness :
    (∃ pf, run_refresh_loop (some ⟨false, true, true⟩)
      [⟨true, false, ⟨false, true, true⟩⟩, ⟨false, false, ⟨false, true, true⟩⟩] = .ok pf) ∧
    run_refresh_loop (some ⟨false, true, true⟩)
      [⟨true, false, ⟨false, true, true⟩⟩, ⟨false, false, ⟨false, true, true⟩⟩]
      = .ok (some ⟨false, true, true⟩) := by
  refine ⟨?_, rfl⟩
  exact (refresh_loop_survives_cycle_failures (some ⟨false, true, true⟩)
    [⟨true, false, ⟨false, true, true⟩⟩, ⟨false, false, ⟨false, true, true⟩⟩]
    (by intro q hq; cases hq; exact Or.inl rfl)
    (by intro e he; fin_cases he <;> exact Or.inl rfl)).1

/-- **C9.** If the child survives both the 30-unit wait after `terminate` and
the 10-unit wait after `kill`, `stop_bluemap_process` raises (the
`TimeoutExpired` of the second wait is not caught), and since the tick's stop
call is outside the per-cycle `try` blocks the exception terminates the loop. -/
theorem stop_timeout_propagates (p : ChildProc) (env : TickEnv)
    (h1 : p.exited = false) (h30 : p.diesWithin30AfterTerm = false)
    (h10 : p.diesWithin10AfterKill = false) :
    (stop_bluemap_process (some p)).2 = true ∧
    (refresh_tick (some p) env).2 = .error () := by
  obtain ⟨e, d30, d10⟩ := p
  simp only at h1 h30 h10
  subst h1; subst h30; subst h10
  exact ⟨rfl, rfl⟩

/-- Witness for C9 at a concrete unresponsive process. -/
theorem stop_timeout_propagates_witness :
    (ChildProc.mk false false false).exited = false ∧
    (refresh_tick (some ⟨false, false, false⟩)
      ⟨false, false, ⟨false, true, true⟩⟩).2 = .error () :=
  ⟨rfl, (stop_timeout_propagates ⟨false, false, false⟩
    ⟨false, false, ⟨false, true, true⟩⟩ rfl rfl rfl).2⟩

/-! ## Startup sequencing: `ensure_directories`, `validate_environment`, and
the interval check (mapper.py:44-48, 61-77, 493-495, 618-623)

`main` calls `ensure_directories` (which creates the output, config and
config/maps directories) *before* `validate_environment` (which raises on a
missing BlueMap JAR or missing Bedrock world directory), and only then calls
`run_periodic_refresh_service`, whose first statement raises `ValueError`
when the refresh interval is not positive.
-/

/-- Side effects and log lines emitted during startup. -/
inductive SetupEv where
  | mkdir (path : PyPath)
  | writeFile (path : PyPath)
  | logWorldDirListing
deriving DecidableEq, Repr

/-- The fatal configuration errors raised during startup. -/
inductive SetupErr where
  | missingJar
  | missingWorld
  | nonPositiveInterval
deriving DecidableEq, Repr

/-- Presence of the required external artifacts. -/
structure StartupEnv where
  jarExists : Bool
  worldExists : Bool

/-- `ensure_directories` (mapper.py:44-48): creates the output path, the
config dir, and the config/maps dir. -/
def ensure_directories (cfg : GlobalConfig) : List SetupEv :=
  [.mkdir cfg.output_path, .mkdir cfg.config_dir, .mkdir (cfg.config_dir.child "maps")]

/-- `validate_environment` (mapper.py:61-77): raise on a missing JAR; then on
a missing world directory (after logging the parent's entries). -/
def validate_environment (cfg : GlobalConfig) (env : StartupEnv) :
    List SetupEv × Option SetupErr :=
  if !env.jarExists then ([], some .missingJar)
  else if !env.worldExists then ([.logWorldDirListing], some .missingWorld)
  else ([], none)

/-- The startup prefix of `main` (mapper.py:618-623) up to and including the
interval check at the top of `run_periodic_refresh_service` (mapper.py:493-495):
directories are created, then the environment is validated, then the interval
is checked.  The trace records every side effect performed before the first
error (or before the service's first refresh cycle, which is beyond this
model). -/
def main_startup (cfg : GlobalConfig) (env : StartupEnv) :
    List SetupEv × Option SetupErr :=
  let dirEvs := ensure_directories cfg
  let v := validate_environment cfg env
  match v.2 with
  | some e => (dirEvs ++ v.1, some e)
  | none =>
    if cfg.render_interval ≤ 0 then (dirEvs ++ v.1, some .nonPositiveInterval)
    else (dirEvs ++ v.1, none)

/-- A concrete configuration used in counterexamples. -/
def sampleConfig : GlobalConfig :=
  { bedrock_world_dir := ⟨true, ["bedrock", "worlds", "world"]⟩
    java_world_dir := ⟨true, ["data", "java_world"]⟩
    output_path := ⟨true, ["webroot"]⟩
    config_dir := ⟨true, ["opt", "bluemap", "config"]⟩
    bluemap_jar := ⟨true, ["opt", "bluemap", "BlueMap-cli.jar"]⟩
    render_threads := 2
    render_interval := 600
    ambient_light := "1.0" }

/-- **C4, counterexample.** Configuration errors are *not* raised before every
side effect: with the BlueMap JAR missing, startup still creates all three
directories (output, config, config/maps) before raising `missingJar`,
because `main` calls `ensure_directories` before `validate_environment`. -/
theorem startup_side_effects_before_error :
    (main_startup sampleConfig ⟨false, true⟩).2 = some .missingJar ∧
    SetupEv.mkdir sampleConfig.output_path ∈ (main_startup sampleConfig ⟨false, true⟩).1 ∧
    SetupEv.mkdir sampleConfig.config_dir ∈ (main_startup sampleConfig ⟨false, true⟩).1 := by
  refine ⟨rfl, ?_, ?_⟩ <;> simp [main_startup, ensure_directories, validate_environment]

/-- **C4, amended.** The three configuration errors (missing JAR, missing
world, non-positive interval) are fatal and are raised before any *file* is
written and before any conversion or render begins — but after the three
directory-creation calls, which `main` performs first.  Moreover the errors
are checked in that order: a missing JAR is reported even when the world is
also missing, and the interval error is raised only when both artifacts
exist. -/
theorem startup_error_ordering (cfg : GlobalConfig) (env : StartupEnv)
    (herr : (main_startup cfg env).2 ≠ none) :
    (∀ p, SetupEv.writeFile p ∉ (main_startup cfg env).1) ∧
    ((main_startup cfg env).1.take 3 = ensure_directories cfg) ∧
    (env.jarExists = false → (main_startup cfg env).2 = some .missingJar) ∧
    (env.jarExists = true → env.worldExists = false →
      (main_startup cfg env).2 = some .missingWorld) ∧
    (env.jarExists = true → env.worldExists = true →
      (main_startup cfg env).2 = some .nonPositiveInterval ∧ cfg.render_interval ≤ 0) := by
  obtain ⟨j, w⟩ := env
  cases j
  · refine ⟨?_, ?_, ?_, ?_, ?_⟩
    · intro p; simp [main_startup, ensure_directories, validate_environment]
    · simp [main_startup, ensure_directories, validate_environment]
    · intro _; simp [main_startup, validate_environment]
    · intro h; cases h
    · intro h; cases h
  · cases w
    · refine ⟨?_, ?_, ?_, ?_, ?_⟩
      · intro p; simp [main_startup, ensure_directories, validate_environment]
      · simp [main_startup, ensure_directories, validate_environment]
      · intro h; cases h
      · intro _ _; simp [main_startup, validate_environment]
      · intro _ h; cases h
    · by_cases hi : cfg.render_interval ≤ 0
      · refine ⟨?_, ?_, ?_, ?_, ?_⟩
        · intro p; simp [main_startup, ensure_directories, validate_environment, hi]
        · simp [main_startup, ensure_directories, validate_environment, hi]
        · intro h; cases h
        · intro _ h; cases h
        · intro _ _
          refine ⟨?_, hi⟩
          simp [main_startup, validate_environment, hi]
      · exfalso
        apply herr
        simp [main_startup, ensure_directories, validate_environment, hi]

/-- Witness for C4 (amended): with a missing world directory the model raises
`missingWorld` after exactly the three mkdir events and no file writes. -/
theorem startup_error_ordering_witness :
    (main_startup sampleConfig ⟨true, false⟩).2 ≠ none ∧
    (main_startup sampleConfig ⟨true, false⟩).1.take 3 = ensure_directories sampleConfig := by
  have h : (main_startup sampleConfig ⟨true, false⟩).2 ≠ none := by
    simp [main_startup, ensure_directories, validate_environment]
  exact ⟨h, (startup_error_ordering sampleConfig ⟨true, false⟩ h).2.1⟩

/-! ## World conversion and snapshot cleanup
(`prepare_bedrock_world_source`, mapper.py:80-92;
`convert_bedrock_map_to_java_map`, mapper.py:95-183)

The conversion is modelled as a pure function over an oracle describing the
outcomes of the external calls.  The function mirrors the source's
`try/except/finally` structure: the snapshot temp directory is created by
`mkdtemp` before `copytree`; the local `snapshot_root` of the converter is
assigned only when `prepare_bedrock_world_source` *returns*, so a `copytree`
failure leaves the temp directory behind; the `finally` block closes any open
handles and removes the snapshot root, suppressing all cleanup exceptions.
-/

/-- The per-map data returned by the conversion (mapper.py:31-35). -/
structure MapConfig where
  name : String
  min_y : Int
  max_y : Int
deriving DecidableEq, Repr

/-- Outcome of `amulet.load_level`. -/
inductive LoadOutcome where
  /-- World loaded; carries level name and vertical bounds. -/
  | ok (name : String) (min_y max_y : Int)
  /-- `LoaderNoneMatched`: the path is not a recognizable world. -/
  | loaderNoneMatched
  /-- Any other exception. -/
  | otherError
deriving DecidableEq, Repr

/-- Oracle for the external calls made during one conversion. -/
structure ConvEnv where
  /-- `os.access(bedrock_world_dir, os.W_OK)` -/
  sourceWritable : Bool
  /-- whether `shutil.copytree` into the snapshot succeeds -/
  copyOk : Bool
  /-- outcome of `amulet.load_level` -/
  load : LoadOutcome
  /-- whether `create_and_open` + `save` + the in-body closes succeed -/
  saveOk : Bool
  /-- whether the `finally` block's `shutil.rmtree(snapshot_root)` succeeds -/
  rmtreeOk : Bool

/-- Errors escaping `convert_bedrock_map_to_java_map` (after being logged and
re-raised). -/
inductive ConvErr where
  | loaderNoneMatched
  | other
deriving DecidableEq, Repr

/-- Final snapshot state: was a temp snapshot directory created, and does it
still exist when the call returns/raises? -/
structure SnapState where
  tempCreated : Bool
  tempRemains : Bool
deriving DecidableEq, Repr

/-- `convert_bedrock_map_to_java_map` (mapper.py:95-183), restricted to the
observables relevant here: the returned value or escaping error, and the fate
of the temporary snapshot directory.  Follows the source's control flow:

* writable source: no snapshot is created;
* read-only source: `mkdtemp` creates the temp root, then `copytree`; if the
  copy raises, the exception propagates out of `prepare_bedrock_world_source`
  before `snapshot_root` is assigned, so the `finally` block does not remove
  the temp root;
* otherwise the body proceeds (load → save → close); on *every* exit the
  `finally` block runs `shutil.rmtree(snapshot_root)` inside
  `try/except Exception: pass`, so a removal failure is suppressed and never
  replaces the body's outcome. -/
def convert_bedrock_map_to_java_map (env : ConvEnv) :
    Except ConvErr MapConfig × SnapState :=
  if env.sourceWritable then
    -- no snapshot; body result decided by load/save outcomes
    match env.load with
    | .loaderNoneMatched => (.error .loaderNoneMatched, ⟨false, false⟩)
    | .otherError => (.error .other, ⟨false, false⟩)
    | .ok n lo hi =>
      if env.saveOk then (.ok ⟨n, lo, hi⟩, ⟨false, false⟩)
      else (.error .other, ⟨false, false⟩)
  else if !env.copyOk then
    -- mkdtemp succeeded, copytree raised: snapshot_root never assigned,
    -- finally block removes nothing
    (.error .other, ⟨true, true⟩)
  else
    -- snapshot prepared; finally always attempts rmtree, suppressing failure
    let remains := !env.rmtreeOk
    match env.load with
    | .loaderNoneMatched => (.error .loaderNoneMatched, ⟨true, remains⟩)
    | .otherError => (.error .other, ⟨true, remains⟩)
    | .ok n lo hi =>
      if env.saveOk then (.ok ⟨n, lo, hi⟩, ⟨true, remains⟩)
      else (.error .other, ⟨true, remains⟩)

/-- **C7, counterexample.** With a read-only source, if the copy into the
snapshot directory fails, the conversion raises but the temporary directory
created by `mkdtemp` is *not* removed: `snapshot_root` is assigned only when
`prepare_bedrock_world_source` returns, so the `finally` cleanup skips it.
This refutes "on every exit path of the conversion that temporary directory
is removed". -/
theorem snapshot_leak_on_copy_failure :
    (convert_bedrock_map_to_java_map
        ⟨false, false, .ok "world" (-64) 320, true, true⟩).2
      = ⟨true, true⟩ ∧
    (convert_bedrock_map_to_java_map
        ⟨false, false, .ok "world" (-64) 320, true, true⟩).1
      = .error .other := by
  constructor <;> rfl

/-- **C7, amended.** When the source world is not writable, a temporary
snapshot is created; on every exit path reached after the snapshot copy
succeeds (success, loader-not-matched, any other error, with or without a
save failure), removal of the snapshot directory is attempted and it is gone
whenever the removal call itself succeeds; a cleanup failure is suppressed:
the conversion's returned outcome is independent of whether the removal
succeeded.  If the copy into the snapshot fails, the temp directory leaks. -/
theorem snapshot_cleanup_amended (env : ConvEnv)
    (hro : env.sourceWritable = false) :
    (env.copyOk = true → env.rmtreeOk = true →
      (convert_bedrock_map_to_java_map env).2 = ⟨true, false⟩) ∧
    (env.copyOk = true →
      (convert_bedrock_map_to_java_map env).2.tempRemains = !env.rmtreeOk) ∧
    (∀ b, (convert_bedrock_map_to_java_map { env with rmtreeOk := b }).1
        = (convert_bedrock_map_to_java_map env).1) ∧
    (env.copyOk = false → (convert_bedrock_map_to_java_map env).2 = ⟨true, true⟩) := by
  obtain ⟨w, c, l, s, r⟩ := env
  simp only at hro
  subst hro
  refine ⟨?_, ?_, ?_, ?_⟩
  · intro hc hr
    simp only at hc hr
    subst hc; subst hr
    cases l <;> simp [convert_bedrock_map_to_java_map] <;> by_cases hs : s = true <;> simp [hs]
  · intro hc
    simp only at hc
    subst hc
    cases l <;> cases r <;> simp [convert_bedrock_map_to_java_map] <;>
      by_cases hs : s = true <;> simp [hs]
  · intro b
    cases c <;> cases l <;> cases r <;> cases b <;>
      simp [convert_bedrock_map_to_java_map] <;>
      by_cases hs : s = true <;> simp [hs]
  · intro hc
    simp only at hc
    subst hc
    cases l <;> simp [convert_bedrock_map_to_java_map]

/-- Witness for C7 (amended) at a concrete read-only-source environment. -/
theorem snapshot_cleanup_amended_witness :
    (ConvEnv.mk false true (.ok "world" (-64) 320) true true).sourceWritable = false ∧
    (convert_bedrock_map_to_java_map
        ⟨false, true, .ok "world" (-64) 320, true, true⟩).2 = ⟨true, false⟩ :=
  ⟨rfl, (snapshot_cleanup_amended ⟨false, true, .ok "world" (-64) 320, true, true⟩
    rfl).1 rfl rfl⟩

/-! ## Text model: the script's regex-based config rewriting

Config-file text is modelled as `List Char`.  The script uses three kinds of
rewrite, each modelled by an executable scanner with the exact semantics of
the Python pattern it embeds (all scanners use a fuel argument bounding the
recursion depth; any fuel above the text length gives the scanner's value):

* `str.replace` — literal find/replace, left to right, non-overlapping;
* `re.sub` without anchors — same scan with a nontrivial matcher
  (`render-thread-count:\s*\d+`, `id:\s*"[^"]*"`, …);
* `re.subn` with `(?m)^...\s*$` — anchored multi-line matching, where `^`
  matches at the string start or just after a newline, `$` at the string end
  or just before a newline, and `\s` (which includes the newline) lets a
  match absorb adjacent whitespace-only lines.
-/

/-- Python `\s` on ASCII text: space, tab, newline, carriage return,
vertical tab, form feed. -/
def pySpace (c : Char) : Bool :=
  c == ' ' || c == '\t' || c == '\n' || c == '\r' || c == '\x0b' || c == '\x0c'

/-- Length of the leading whitespace run (`\s*`, greedy). -/
def leadSpaces (u : List Char) : Nat := (u.takeWhile pySpace).length

/-- `$` in `(?m)` mode: end of text or just before a newline. -/
def atEol : List Char → Bool
  | [] => true
  | c :: _ => c == '\n'

/-- `\s*$` with greedy backtracking: the largest `k ≤ leadSpaces u` such that
position `k` is at `$`; `none` when no such position exists. -/
def tailSpacesEnd (u : List Char) : Option Nat :=
  (List.range (leadSpaces u + 1)).reverse.find? (fun k => atEol (u.drop k))

/-- Split text following an opening quote at the first closing `"` (the only
way `"[^"]*"` can match): returns the inside and the remainder after the
closing quote. -/
def splitQuote : List Char → Option (List Char × List Char)
  | [] => none
  | c :: cs =>
    if c == '"' then some ([], cs)
    else (splitQuote cs).map (fun p => (c :: p.1, p.2))

/-- `\S+\s*$`: a maximal nonempty run of non-whitespace, then `\s*$`.
(Backtracking into `\S+` never helps: the freed character is non-whitespace
and not a newline, so `$` cannot match there.) -/
def valueTokenMatch (v : List Char) : Option Nat :=
  let r := (v.takeWhile (fun c => !pySpace c)).length
  if r = 0 then none
  else (tailSpacesEnd (v.drop r)).map (fun k => r + k)

/-- `(?:"[^"]*"|\S+)\s*$`: try the quoted alternative first — an opening
quote, everything up to the first closing quote, then `\s*$`; on failure fall
back to the bare-token alternative. -/
def valueMatch (v : List Char) : Option Nat :=
  match v with
  | [] => none
  | c :: rest =>
    if c = '"' then
      match splitQuote rest with
      | some (inside, after) =>
        match tailSpacesEnd after with
        | some k => some (2 + inside.length + k)
        | none => valueTokenMatch v
      | none => valueTokenMatch v
    else valueTokenMatch v

/-- Match of `\s*KW\s*(?:"[^"]*"|\S+)\s*$` at an anchored position: leading
whitespace (greedy, deterministic because `KW` starts with a non-space), the
literal keyword, more whitespace, then the value.  Returns the number of
characters consumed. -/
def matchAt (kw : List Char) (t : List Char) : Option Nat :=
  let s1 := leadSpaces t
  let t1 := t.drop s1
  if kw.isPrefixOf t1 then
    let t2 := t1.drop kw.length
    let s2 := leadSpaces t2
    (valueMatch (t2.drop s2)).map (fun n => s1 + kw.length + s2 + n)
  else none

/-- The scanning loop of `re.subn` with pattern `(?m)^\s*KW\s*(?:"[^"]*"|\S+)\s*$`:
`anchored` records whether the current position is at the string start or just
after a newline (where `^` matches).  On a match the matched span is replaced
by `repl` and scanning resumes after it; the resume position is anchored
exactly when the last matched character was a newline.  `fuel ≥` text length
makes the scanner total. -/
def subnGo (kw repl : List Char) : Nat → Bool → List Char → List Char × Nat
  | _, _, [] => ([], 0)
  | 0, _, t => (t, 0)
  | fuel + 1, false, c :: cs =>
    let r := subnGo kw repl fuel (c == '\n') cs
    (c :: r.1, r.2)
  | fuel + 1, true, c :: cs =>
    match matchAt kw (c :: cs) with
    | none =>
      let r := subnGo kw repl fuel (c == '\n') cs
      (c :: r.1, r.2)
    | some n =>
      let matched := (c :: cs).take n
      let rest := (c :: cs).drop n
      let r := subnGo kw repl fuel (matched.getLast? == some '\n') rest
      (repl ++ r.1, r.2 + 1)

/-- `re.subn(r'(?m)^\s*KW\s*(?:"[^"]*"|\S+)\s*$', repl, content)`. -/
def pySubn (kw repl content : List Char) : List Char × Nat :=
  subnGo kw repl (content.length + 1) true content

/-- The replacement directive line `KW "value"` used by the patches. -/
def directiveLine (kw value : List Char) : List Char :=
  kw ++ ' ' :: '"' :: (value ++ ['"'])

/-- The web-root / storage-root patch applied by `generate_bluemap_config`
(mapper.py:242-252, 262-272, 283-293): substitute every match of the
directive pattern by `KW "value"`; when there is no match, append the line
(prepending a newline when the text does not already end in one). -/
def patch_directive (kw value content : List Char) : List Char :=
  let line := directiveLine kw value
  let res := pySubn kw line content
  if res.2 = 0 then
    (if res.1.getLast? = some '\n' then res.1 else res.1 ++ ['\n']) ++ line ++ ['\n']
  else res.1

/-- The generic unanchored substitution scan shared by `str.replace` and the
plain `re.sub` calls: at every position try the matcher; on a match emit the
replacement and resume after the matched span, otherwise copy one character. -/
def subAllGo (m : List Char → Option Nat) (repl : List Char) : Nat → List Char → List Char
  | _, [] => []
  | 0, t => t
  | fuel + 1, c :: cs =>
    match m (c :: cs) with
    | some n => repl ++ subAllGo m repl fuel ((c :: cs).drop n)
    | none => c :: subAllGo m repl fuel cs

/-- Matcher for a literal pattern (the semantics of `str.replace`). -/
def litMatch (pat : List Char) (t : List Char) : Option Nat :=
  if pat.isPrefixOf t then some pat.length else none

/-- `content.replace(pat, repl)`. -/
def replaceAll (pat repl t : List Char) : List Char :=
  subAllGo (litMatch pat) repl (t.length + 1) t

/-- Decimal digit characters of a natural number (the f-string rendering of a
non-negative int). -/
def natDigitsGo : Nat → Nat → List Char → List Char
  | 0, _, acc => acc
  | fuel + 1, n, acc =>
    let d := Char.ofNat (48 + n % 10)
    if n < 10 then d :: acc else natDigitsGo fuel (n / 10) (d :: acc)

/-- Decimal rendering of a natural number. -/
def natDigits (n : Nat) : List Char := natDigitsGo (n + 1) n []

/-- The literal that anchors every `render-thread-count` match. -/
def tLit : List Char := "render-thread-count:".toList

/-- The literal plus the single space used by the replacement. -/
def tLitSp : List Char := "render-thread-count: ".toList

/-- Matcher for `render-thread-count:\s*\d+` (greedy and deterministic: the
literal, maximal whitespace, then a maximal nonempty digit run). -/
def threadMatchLen (t : List Char) : Option Nat :=
  if tLit.isPrefixOf t then
    let rest := t.drop tLit.length
    let sp := (rest.takeWhile pySpace).length
    let ds := ((rest.drop sp).takeWhile Char.isDigit).length
    if ds = 0 then none else some (tLit.length + sp + ds)
  else none

/-- The replacement text `render-thread-count: N`. -/
def threadRepl (threads : Nat) : List Char :=
  tLitSp ++ natDigits threads

/-- `re.sub(r'render-thread-count:\s*\d+', f'render-thread-count: {threads}', t)`. -/
def sub_thread_count (threads : Nat) (t : List Char) : List Char :=
  subAllGo threadMatchLen (threadRepl threads) (t.length + 1) t

/-- The core-settings patch applied to `core.conf`
(mapper.py:217-233): `accept-download: false` → `accept-download: true`
(plain `str.replace`), then the render-thread-count rewrite. -/
def patch_core (threads : Nat) (content : List Char) : List Char :=
  sub_thread_count threads
    (replaceAll "accept-download: false".toList "accept-download: true".toList content)

/-- Matcher for `KEY:\s*"[^"]*"` (used on the cloned sample map config for
`id:`, `name:`, `world:`): the literal key, whitespace, then a quoted value
ending at the first closing quote. -/
def keyQuoteMatchLen (key : List Char) (t : List Char) : Option Nat :=
  if key.isPrefixOf t then
    let rest := t.drop key.length
    let sp := (rest.takeWhile pySpace).length
    match rest.drop sp with
    | '"' :: r2 => (splitQuote r2).map (fun p => key.length + sp + 2 + p.1.length)
    | _ => none
  else none

/-- `re.sub(r'KEY:\s*"[^"]*"', 'KEY: "value"', t)`. -/
def sub_key_quote (key value : List Char) (t : List Char) : List Char :=
  subAllGo (keyQuoteMatchLen key) (directiveLine key value) (t.length + 1) t

/-- `[0-9]*\.?[0-9]+` followed by `\s*$` — the ambient-light value pattern.
Deterministic reading of the backtracking behaviour: a maximal digit run,
then an optional dot which must be followed by a nonempty maximal digit run;
shrinking either run frees a digit or dot, on which `\s*$` can never match. -/
def ambientValueMatch (v : List Char) : Option Nat :=
  let d1 := (v.takeWhile Char.isDigit).length
  match v.drop d1 with
  | '.' :: r2 =>
    let d2 := (r2.takeWhile Char.isDigit).length
    if d2 = 0 then
      if d1 = 0 then none else (tailSpacesEnd (v.drop d1)).map (fun k => d1 + k)
    else (tailSpacesEnd (r2.drop d2)).map (fun k => d1 + 1 + d2 + k)
  | _ =>
    if d1 = 0 then none else (tailSpacesEnd (v.drop d1)).map (fun k => d1 + k)

/-- Match of `\s*ambient-light:\s*[0-9]*\.?[0-9]+\s*$` at an anchored
position. -/
def ambientMatchAt (t : List Char) : Option Nat :=
  let kw := "ambient-light:".toList
  let s1 := leadSpaces t
  let t1 := t.drop s1
  if kw.isPrefixOf t1 then
    let t2 := t1.drop kw.length
    let s2 := leadSpaces t2
    (ambientValueMatch (t2.drop s2)).map (fun n => s1 + kw.length + s2 + n)
  else none

/-- The anchored-scan loop for the ambient-light pattern (same structure as
`subnGo`, with the ambient matcher). -/
def ambientSubnGo (repl : List Char) : Nat → Bool → List Char → List Char × Nat
  | _, _, [] => ([], 0)
  | 0, _, t => (t, 0)
  | fuel + 1, false, c :: cs =>
    let r := ambientSubnGo repl fuel (c == '\n') cs
    (c :: r.1, r.2)
  | fuel + 1, true, c :: cs =>
    match ambientMatchAt (c :: cs) with
    | none =>
      let r := ambientSubnGo repl fuel (c == '\n') cs
      (c :: r.1, r.2)
    | some n =>
      let matched := (c :: cs).take n
      let rest := (c :: cs).drop n
      let r := ambientSubnGo repl fuel (matched.getLast? == some '\n') rest
      (repl ++ r.1, r.2 + 1)

/-- `re.subn(r'(?m)^\s*ambient-light:\s*[0-9]*\.?[0-9]+\s*$', ...)`
(mapper.py:321-325). -/
def ambientSubn (repl content : List Char) : List Char × Nat :=
  ambientSubnGo repl (content.length + 1) true content

/-! ## `generate_bluemap_config` (mapper.py:186-296) at the file level -/

/-- The four config files the function touches; `none` = file absent. -/
structure ConfFiles where
  core : Option (List Char)
  webserver : Option (List Char)
  webapp : Option (List Char)
  fileStorage : Option (List Char)
deriving DecidableEq

/-- `generate_bluemap_config`: when `core.conf` is absent the renderer is
invoked once to materialize defaults (an external effect, modelled by the
`materialized` parameter giving the resulting file state; a timeout or
non-zero exit of that call is treated as success).  Then each existing file
is rewritten in place: `core.conf` with the core patch, `webserver.conf` and
`webapp.conf` with the web-root directive patch, `storages/file.conf` with
the root directive patch pointed at `output_path / "maps"`. -/
def generate_bluemap_config (cfg : GlobalConfig) (fs0 : ConfFiles)
    (materialized : ConfFiles) : ConfFiles :=
  let fs := if fs0.core = none then materialized else fs0
  { core := fs.core.map (patch_core cfg.render_threads)
    webserver := fs.webserver.map
      (patch_directive "webroot:".toList cfg.output_path.render.toList)
    webapp := fs.webapp.map
      (patch_directive "webroot:".toList cfg.output_path.render.toList)
    fileStorage := fs.fileStorage.map
      (patch_directive "root:".toList (cfg.output_path.child "maps").render.toList) }

/-! ## `write_map_config` (mapper.py:299-386) -/

/-- `lowres_view_distance = render_threads * 2` (mapper.py:336). -/
def lowres_view_distance (threads : Nat) : Nat := threads * 2

/-- `hires_view_distance = lowres_view_distance * 2` (mapper.py:337). -/
def hires_view_distance (threads : Nat) : Nat := lowres_view_distance threads * 2

/-- Decimal rendering of a Python int (possibly negative). -/
def intChars (n : Int) : List Char :=
  if n < 0 then '-' :: natDigits n.natAbs else natDigits n.natAbs

/-- The built-in map-config template (the f-string at mapper.py:339-383),
with the configured id, display name, world path, ambient light, computed
view distances and cave-removal threshold substituted. -/
def map_config_template (cfg : GlobalConfig) (map_cfg : MapConfig) : List Char :=
  ("##                          ##\n"
    ++ "##         BlueMap          ##\n"
    ++ "##        Map-Config        ##\n"
    ++ "##                          ##\n\n"
    ++ "# The id of this map\n"
    ++ "id: \"" ++ cfg.java_world_dir.name ++ "\"\n\n"
    ++ "# The display name of this map  \n"
    ++ "name: \"" ++ map_cfg.name ++ "\"\n\n"
    ++ "# The world/save-folder of this map (converted from Bedrock)\n"
    ++ "world: \"" ++ cfg.java_world_dir.render ++ "\"\n\n"
    ++ "# The dimension of the world\n"
    ++ "dimension: \"minecraft:overworld\"\n\n"
    ++ "# The position of this map in the web-application\n"
    ++ "sorting: 0\n\n"
    ++ "# The start position for this map\n"
    ++ "# (the position where the players camera is when opening the map)\n"
    ++ "start-pos: \x7bx: 0, z: 0\x7d\n\n"
    ++ "# The color of the sky\n"
    ++ "sky-color: \"#7dabff\"\n\n"
    ++ "# Defines the ambient light\n"
    ++ "ambient-light: " ++ cfg.ambient_light ++ "\n\n"
    ++ "# Defines the view-distance for hires tiles\n").toList
  ++ "hires-view-distance: ".toList ++ natDigits (hires_view_distance cfg.render_threads)
  ++ ("\n\n"
    ++ "# Defines the view-distance for lowres tiles\n").toList
  ++ "lowres-view-distance: ".toList ++ natDigits (lowres_view_distance cfg.render_threads)
  ++ ("\n\n"
    ++ "# Whether edges should be rendered\n"
    ++ "render-edges: true\n\n"
    ++ "# Whether the highres layer should be saved\n"
    ++ "save-hires-layer: true\n\n"
    ++ "# Remove caves below this Y-level (Bedrock typically uses -64)\n").toList
  ++ "remove-caves-below-y: ".toList ++ intChars map_cfg.min_y ++ ['\n']

/-- In-place rewrite of a cloned sample map config (mapper.py:313-329):
`id`, `name` and `world` are rewritten through the quoted-value pattern, then
`ambient-light` is rewritten through the anchored decimal pattern, appended
when absent. -/
def patch_sample_map_config (cfg : GlobalConfig) (map_cfg : MapConfig)
    (sample : List Char) : List Char :=
  let s := sub_key_quote "id:".toList cfg.java_world_dir.name.toList sample
  let s := sub_key_quote "name:".toList map_cfg.name.toList s
  let s := sub_key_quote "world:".toList cfg.java_world_dir.render.toList s
  let amLine := "ambient-light: ".toList ++ cfg.ambient_light.toList
  let res := ambientSubn amLine s
  if res.2 = 0 then
    (if res.1.getLast? = some '\n' then res.1 else res.1 ++ ['\n']) ++ amLine ++ ['\n']
  else res.1

/-- The file content written by `write_map_config`, tagged by the branch that
produced it. -/
inductive MapWrite where
  | clonedSample (content : List Char)
  | generated (content : List Char)
deriving DecidableEq

/-- `write_map_config` (mapper.py:299-386): when the maps directory holds at
least one `.conf` file and the target map config does not yet exist, the
first sample is cloned and patched; otherwise the file is written whole from
the built-in template.  `samples` is the glob result, `targetExists` whether
the target file exists; the write replaces the whole target file. -/
def write_map_config (cfg : GlobalConfig) (map_cfg : MapConfig)
    (samples : List (List Char)) (targetExists : Bool) : MapWrite :=
  match samples, targetExists with
  | s :: _, false => .clonedSample (patch_sample_map_config cfg map_cfg s)
  | _, _ => .generated (map_config_template cfg map_cfg)

/-- **C10.** When the target map-config file already exists, the file is
regenerated whole from the built-in template — whose view distances are
`hires = 4 × threads` and `lowres = 2 × threads` — overwriting the previous
content (the result does not depend on the samples found); the clone branch
is taken exactly when the maps directory contains at least one `.conf` file
and the target does not exist. -/
theorem write_map_config_spec (cfg : GlobalConfig) (map_cfg : MapConfig)
    (samples : List (List Char)) (targetExists : Bool) :
    (targetExists = true →
      write_map_config cfg map_cfg samples targetExists
        = .generated (map_config_template cfg map_cfg)) ∧
    ((∃ c, write_map_config cfg map_cfg samples targetExists = .clonedSample c) ↔
      samples ≠ [] ∧ targetExists = false) ∧
    hires_view_distance cfg.render_threads = 4 * cfg.render_threads ∧
    lowres_view_distance cfg.render_threads = 2 * cfg.render_threads := by
  refine ⟨?_, ?_, ?_, ?_⟩
  · intro ht
    subst ht
    cases samples <;> rfl
  · constructor
    · rintro ⟨c, hc⟩
      cases samples with
      | nil => cases targetExists <;> simp [write_map_config] at hc
      | cons s rest =>
        cases targetExists with
        | false => exact ⟨by simp, rfl⟩
        | true => simp [write_map_config] at hc
    · rintro ⟨hs, ht⟩
      subst ht
      cases samples with
      | nil => exact absurd rfl hs
      | cons s rest => exact ⟨_, rfl⟩
  · simp [hires_view_distance, lowres_view_distance]; ring
  · simp [lowres_view_distance]; ring

/-- Witness for C10 at concrete inputs (target exists, one sample present:
the template branch is taken). -/
theorem write_map_config_spec_witness :
    (true = true →
      write_map_config sampleConfig ⟨"world", -64, 320⟩ ["id: \"old\"".toList] true
        = .generated (map_config_template sampleConfig ⟨"world", -64, 320⟩)) ∧
    hires_view_distance sampleConfig.render_threads = 4 * sampleConfig.render_threads :=
  ⟨(write_map_config_spec sampleConfig ⟨"world", -64, 320⟩ ["id: \"old\"".toList] true).1,
   (write_map_config_spec sampleConfig ⟨"world", -64, 320⟩ ["id: \"old\"".toList] true).2.2.1⟩

/-! ## Counterexamples for C2 and C6

Verified against CPython's `re` on the same inputs: on a file that lacks the
directive, the patch appends `KW "value"` plus a final newline, but a second
application *matches the appended line together with the trailing newline*
(greedy `\s*$` under `(?m)` consumes the newline before matching `$` at the
end of the string) and so rewrites the file again, dropping that newline.
On a replace, a whitespace-only line adjacent to the directive line is
absorbed into the match (leading `^\s*` crosses the newline) and disappears.
-/

/-- **C2, counterexample.** The web-root patch is not idempotent: on the
empty config text the first application appends the directive line, and the
second application produces a different text (it swallows the leading and
trailing newlines of the appended line). -/
theorem patch_directive_not_idempotent :
    patch_directive "webroot:".toList "/webroot".toList
        (patch_directive "webroot:".toList "/webroot".toList [])
      ≠ patch_directive "webroot:".toList "/webroot".toList [] ∧
    patch_directive "webroot:".toList "/webroot".toList []
      = "\nwebroot: \"/webroot\"\n".toList ∧
    patch_directive "webroot:".toList "/webroot".toList
        (patch_directive "webroot:".toList "/webroot".toList [])
      = "webroot: \"/webroot\"".toList := by
  refine ⟨?_, by decide, by decide⟩
  decide

/-- **C6, counterexample.** Patching a file that already contains the
directive does not preserve every other line: on `"  \nwebroot: x"` the
whitespace-only first line is absorbed by the match (the pattern's leading
`^\s*` crosses the newline) and is gone from the result, which is the bare
directive line instead of the first line followed by the directive line. -/
theorem patch_directive_drops_adjacent_line :
    patch_directive "webroot:".toList "/webroot".toList "  \nwebroot: x".toList
      = "webroot: \"/webroot\"".toList ∧
    patch_directive "webroot:".toList "/webroot".toList "  \nwebroot: x".toList
      ≠ "  \n".toList ++ "webroot: \"/webroot\"".toList := by
  refine ⟨by decide, ?_⟩
  decide

/-! ## List helper lemmas for the scanner proofs -/

theorem takeWhile_append_not_head {α} (p : α → Bool) (x T : List α)
    (hT : ∀ c, T.head? = some c → p c = false) :
    (x ++ T).takeWhile p = x.takeWhile p := by
  induction x with
  | nil =>
    simp only [List.nil_append, List.takeWhile_nil]
    cases T with
    | nil => rfl
    | cons c cs => simp [List.takeWhile_cons, hT c rfl]
  | cons a x ih =>
    simp only [List.cons_append, List.takeWhile_cons]
    by_cases h : p a <;> simp [h, ih]

theorem takeWhile_append_not_all {α} (p : α → Bool) (x T : List α)
    (hx : x.all p = false) :
    (x ++ T).takeWhile p = x.takeWhile p := by
  induction x with
  | nil => simp at hx
  | cons a x ih =>
    simp only [List.all_cons, Bool.and_eq_false_iff] at hx
    rcases hx with h | h
    · simp [List.takeWhile_cons, h]
    · simp only [List.cons_append, List.takeWhile_cons]
      by_cases hp : p a <;> simp [hp, ih h]

theorem takeWhile_all_eq_self {α} (p : α → Bool) (x : List α) (hx : x.all p = true) :
    x.takeWhile p = x := by
  induction x with
  | nil => rfl
  | cons a x ih =>
    simp only [List.all_cons, Bool.and_eq_true] at hx
    simp [List.takeWhile_cons, hx.1, ih hx.2]

theorem takeWhile_length_lt {α} (p : α → Bool) (x : List α) (hx : x.all p = false) :
    (x.takeWhile p).length < x.length := by
  rcases Nat.lt_or_ge (x.takeWhile p).length x.length with h | h
  · exact h
  · exfalso
    have hlen : (x.takeWhile p).length = x.length :=
      le_antisymm (List.takeWhile_sublist p).length_le h
    have heq : x.takeWhile p = x := (List.takeWhile_prefix p).eq_of_length hlen
    have : x.all p = true := by
      rw [List.all_eq_true]
      intro c hc
      exact List.mem_takeWhile_imp (heq ▸ hc)
    simp [this] at hx

theorem takeWhile_stop {α} (p : α → Bool) (x : List α)
    (h : (x.takeWhile p).length < x.length) :
    ∃ c, x[(x.takeWhile p).length]? = some c ∧ p c = false := by
  induction x with
  | nil => simp at h
  | cons a x ih =>
    by_cases hp : p a
    · simp only [List.takeWhile_cons, hp, if_true, List.length_cons] at h ⊢
      have h' : (x.takeWhile p).length < x.length := by omega
      obtain ⟨c, hc, hpc⟩ := ih h'
      exact ⟨c, by simpa using hc, hpc⟩
    · refine ⟨a, ?_, by simpa using hp⟩
      simp [List.takeWhile_cons, hp]

theorem getElem?_takeWhile_region {α} (p : α → Bool) (x : List α) (i : Nat)
    (h : i < (x.takeWhile p).length) : x[i]? = (x.takeWhile p)[i]? := by
  obtain ⟨t, ht⟩ := List.takeWhile_prefix (l := x) p
  conv_lhs => rw [← ht]
  simp [List.getElem?_append, h]

theorem atEol_false_of_head {u : List Char} {c : Char} (h : u.head? = some c)
    (hc : c ≠ '\n') : atEol u = false := by
  cases u with
  | nil => simp at h
  | cons a us =>
    obtain rfl : a = c := by simpa using h
    simpa [atEol] using hc

theorem atEol_nil : atEol [] = true := rfl

theorem isPrefixOf_append_nl (kw : List Char) (hkw : '\n' ∉ kw) (x T : List Char)
    (hT : T = [] ∨ T.head? = some '\n') :
    kw.isPrefixOf (x ++ T) = kw.isPrefixOf x := by
  induction kw generalizing x with
  | nil => simp [List.isPrefixOf]
  | cons k ks ih =>
    have hk : k ≠ '\n' := fun h => hkw (h ▸ List.mem_cons_self _ _)
    have hks : '\n' ∉ ks := fun h => hkw (List.mem_cons_of_mem _ h)
    cases x with
    | nil =>
      rcases hT with rfl | hT
      · rfl
      · cases T with
        | nil => simp at hT
        | cons t ts =>
          obtain rfl : t = '\n' := by simpa using hT
          simp only [List.nil_append, List.isPrefixOf]
          simp [beq_eq_false_iff_ne.mpr hk]
    | cons a x' =>
      simp only [List.cons_append, List.isPrefixOf, List.append_eq]
      rw [ih hks x']

theorem isPrefixOf_append_cases {a b X : List Char} (h : a.isPrefixOf (b ++ X) = true) :
    a.isPrefixOf b = true ∨ b.isPrefixOf a = true := by
  have h' : a <+: b ++ X := List.isPrefixOf_iff_prefix.mp h
  have hb : b <+: b ++ X := ⟨X, rfl⟩
  rcases List.prefix_or_prefix_of_prefix h' hb with hab | hba
  · exact Or.inl (List.isPrefixOf_iff_prefix.mpr hab)
  · exact Or.inr (List.isPrefixOf_iff_prefix.mpr hba)

theorem isPrefixOf_append_same (b t X : List Char) :
    (b ++ t).isPrefixOf (b ++ X) = t.isPrefixOf X := by
  induction b with
  | nil => rfl
  | cons c b ih => simp [List.isPrefixOf, ih]

theorem isPrefixOf_refuted_append {a b X : List Char}
    (h1 : a.isPrefixOf b = false) (h2 : b.isPrefixOf a = false) :
    a.isPrefixOf (b ++ X) = false := by
  rcases hc : a.isPrefixOf (b ++ X) with _ | _
  · rfl
  · rcases isPrefixOf_append_cases hc with h | h
    · rw [h] at h1; cases h1
    · rw [h] at h2; cases h2

theorem find?_revRange_eq_some {p : Nat → Bool} :
    ∀ {n k : Nat}, k ≤ n → p k = true → (∀ j, k < j → j ≤ n → p j = false) →
    (List.range (n + 1)).reverse.find? p = some k := by
  intro n
  induction n with
  | zero =>
    intro k hk hpk _
    interval_cases k
    simp [List.range_succ, hpk]
  | succ n ih =>
    intro k hk hpk hgt
    have hsplit : (List.range (n + 2)).reverse = (n + 1) :: (List.range (n + 1)).reverse := by
      rw [show n + 2 = (n + 1) + 1 from rfl, List.range_succ]
      simp
    rw [hsplit]
    by_cases hk1 : k = n + 1
    · subst hk1
      simp [List.find?_cons_of_pos _ hpk]
    · have hkn : k ≤ n := Nat.lt_succ_iff.mp (lt_of_le_of_ne hk hk1)
      have hp1 : p (n + 1) = false := hgt (n + 1) (Nat.lt_succ_of_le hkn) le_rfl
      rw [List.find?_cons_of_neg _ (by simp [hp1])]
      exact ih hkn hpk (fun j h1 h2 => hgt j h1 (Nat.le_succ_of_le h2))

theorem find?_revRange_eq_none {p : Nat → Bool} {n : Nat}
    (h : ∀ j, j ≤ n → p j = false) :
    (List.range (n + 1)).reverse.find? p = none := by
  rw [List.find?_eq_none]
  intro x hx
  rw [List.mem_reverse, List.mem_range] at hx
  simp [h x (Nat.lt_succ_iff.mp hx)]

/-! ## Characterizing `\s*$` across a line boundary -/

/-- A tail is *good* when it is empty or it is a newline followed by text
whose leading whitespace run contains no newline and stops before the end —
i.e. a newline followed by a non-whitespace-only, newline-headed-run-free
line, which is what follows a safe line inside safe content. -/
def goodTail (T : List Char) : Prop :=
  T = [] ∨ ∃ t', T = '\n' :: t' ∧ leadSpaces t' < t'.length ∧
    '\n' ∉ t'.takeWhile pySpace

/-- `\s*$` after a newline-free segment `w` with a good tail behaves exactly
as on `w` alone: it succeeds (consuming all of `w`, stopping at the `$`
before the tail's newline or at the very end) precisely when `w` is
all-whitespace. -/
theorem tailSpacesEnd_spec (w T : List Char) (hw : '\n' ∉ w) (hT : goodTail T) :
    tailSpacesEnd (w ++ T) = if w.all pySpace then some w.length else none := by
  rcases hT with rfl | ⟨t', rfl, hlt, hnl⟩
  · -- T = []
    rw [List.append_nil]
    by_cases hall : w.all pySpace
    · rw [if_pos hall]
      have hm : leadSpaces w = w.length := by
        unfold leadSpaces
        rw [takeWhile_all_eq_self _ _ hall]
      unfold tailSpacesEnd
      rw [hm]
      exact find?_revRange_eq_some le_rfl (by simp [atEol]) (by omega)
    · rw [if_neg hall]
      have hm : leadSpaces w < w.length :=
        takeWhile_length_lt _ _ (Bool.eq_false_iff.mpr hall)
      unfold tailSpacesEnd
      apply find?_revRange_eq_none
      intro j hj
      have hjlt : j < w.length := lt_of_le_of_lt hj hm
      have hc : w[j]? = some (w[j]) := List.getElem?_eq_some.mpr ⟨hjlt, rfl⟩
      exact atEol_false_of_head (by rw [List.head?_drop, hc])
        (fun h => hw (h ▸ List.getElem?_mem hc))
  · -- T = '\n' :: t'
    have htw : (w ++ '\n' :: t').takeWhile pySpace
        = if w.all pySpace then w ++ '\n' :: t'.takeWhile pySpace
          else w.takeWhile pySpace := by
      by_cases hall : w.all pySpace
      · rw [if_pos hall,
          List.takeWhile_append_of_pos (fun a ha => List.all_eq_true.mp hall a ha),
          List.takeWhile_cons]
        rfl
      · rw [if_neg hall, takeWhile_append_not_all _ _ _ (Bool.eq_false_iff.mpr hall)]
    by_cases hall : w.all pySpace
    · rw [if_pos hall]
      have hm : leadSpaces (w ++ '\n' :: t') = w.length + 1 + leadSpaces t' := by
        unfold leadSpaces
        rw [htw, if_pos hall]
        simp only [List.length_append, List.length_cons]
        omega
      unfold tailSpacesEnd
      rw [hm]
      apply find?_revRange_eq_some (by omega)
      · rw [List.drop_left', atEol]
        · simp
        · rfl
      · intro j h1 h2
        -- j = w.length + 1 + i with i ≤ leadSpaces t'
        obtain ⟨i, rfl⟩ : ∃ i, j = w.length + 1 + i := ⟨j - (w.length + 1), by omega⟩
        have hi : i ≤ leadSpaces t' := by omega
        have hdrop : (w ++ '\n' :: t').drop (w.length + 1 + i) = t'.drop i := by
          have : w.length + 1 + i = w.length + (1 + i) := by omega
          rw [this, List.drop_append (1 + i), Nat.add_comm 1 i]
          exact List.drop_succ_cons
        rw [hdrop]
        rcases Nat.lt_or_ge i (leadSpaces t') with hilt | hige
        · -- inside the whitespace run of t': the character is not '\n'
          have h1 : t'[i]? = (t'.takeWhile pySpace)[i]? :=
            getElem?_takeWhile_region _ _ _ hilt
          have hilt2 : i < (t'.takeWhile pySpace).length := hilt
          have h2 : (t'.takeWhile pySpace)[i]?
              = some ((t'.takeWhile pySpace)[i]) :=
            List.getElem?_eq_some.mpr ⟨hilt2, rfl⟩
          refine atEol_false_of_head (by rw [List.head?_drop, h1, h2]) ?_
          intro hEq
          exact hnl (hEq ▸ List.getElem?_mem h2)
        · -- exactly at the stopping character: it is non-whitespace, so not '\n'
          obtain rfl : i = leadSpaces t' := le_antisymm hi hige
          obtain ⟨c, hc, hpc⟩ := takeWhile_stop pySpace t' hlt
          refine atEol_false_of_head (c := c) ?_ ?_
          · rw [List.head?_drop]
            exact hc
          · intro hEq
            subst hEq
            simp [pySpace] at hpc
    · rw [if_neg hall]
      have hm : leadSpaces (w ++ '\n' :: t') = leadSpaces w := by
        unfold leadSpaces
        rw [htw, if_neg hall]
      have hmlt : leadSpaces w < w.length :=
        takeWhile_length_lt _ _ (Bool.eq_false_iff.mpr hall)
      unfold tailSpacesEnd
      rw [hm]
      apply find?_revRange_eq_none
      intro j hj
      have hjlt : j < w.length := lt_of_le_of_lt hj hmlt
      have hc : w[j]? = some (w[j]) := List.getElem?_eq_some.mpr ⟨hjlt, rfl⟩
      have hcc : (w ++ '\n' :: t')[j]? = some (w[j]) := by
        simp [List.getElem?_append, hjlt, hc]
      exact atEol_false_of_head (by rw [List.head?_drop, hcc])
        (fun h => hw (h ▸ List.getElem?_mem hc))

/-! ## splitQuote and value lemmas -/

theorem splitQuote_eq : ∀ {v i r : List Char}, splitQuote v = some (i, r) →
    v = i ++ '"' :: r ∧ '"' ∉ i := by
  intro v
  induction v with
  | nil => intro i r h; simp [splitQuote] at h
  | cons c cs ih =>
    intro i r h
    by_cases hc : c = '"'
    · subst hc
      simp only [splitQuote, beq_self_eq_true, if_true, Option.some.injEq,
        Prod.mk.injEq] at h
      obtain ⟨rfl, rfl⟩ := h
      exact ⟨rfl, by simp⟩
    · simp only [splitQuote, beq_eq_false_iff_ne.mpr hc, Bool.false_eq_true,
        if_false, Option.map_eq_some'] at h
      obtain ⟨⟨i', r'⟩, hp, heq⟩ := h
      simp only [Prod.mk.injEq] at heq
      obtain ⟨hi, hr⟩ := heq
      subst hi
      subst hr
      obtain ⟨hv, hni⟩ := ih hp
      refine ⟨by simp [hv], ?_⟩
      intro hmem
      rcases List.mem_cons.mp hmem with h' | h'
      · exact hc h'.symm
      · exact hni h'

theorem splitQuote_no_quote : ∀ (x : List Char), '"' ∉ x →
    ∀ r, splitQuote (x ++ '"' :: r) = some (x, r) := by
  intro x
  induction x with
  | nil => intro _ r; simp [splitQuote]
  | cons c cs ih =>
    intro hx r
    have hc : c ≠ '"' := fun h => hx (h ▸ List.mem_cons_self _ _)
    have hcs : '"' ∉ cs := fun h => hx (List.mem_cons_of_mem _ h)
    simp only [List.cons_append, splitQuote, beq_eq_false_iff_ne.mpr hc,
      Bool.false_eq_true, if_false, List.append_eq, ih hcs r, Option.map_some']

theorem splitQuote_isSome_of_mem : ∀ {x : List Char}, '"' ∈ x →
    ∃ i r, splitQuote x = some (i, r) := by
  intro x
  induction x with
  | nil => intro h; simp at h
  | cons c cs ih =>
    intro h
    by_cases hc : c = '"'
    · subst hc
      exact ⟨[], cs, by simp [splitQuote]⟩
    · have hcs : '"' ∈ cs := by
        rcases List.mem_cons.mp h with h' | h'
        · exact absurd h'.symm hc
        · exact h'
      obtain ⟨i, r, hir⟩ := ih hcs
      exact ⟨c :: i, r, by
        simp [splitQuote, beq_eq_false_iff_ne.mpr hc, hir]⟩

/-- `\s*$` on a newline-free text. -/
theorem tailSpacesEnd_no_nl {u : List Char} (hu : '\n' ∉ u) :
    tailSpacesEnd u = if u.all pySpace then some u.length else none := by
  have h := tailSpacesEnd_spec u [] hu (Or.inl rfl)
  rwa [List.append_nil] at h

theorem valueTokenMatch_append (v T : List Char) (hv : '\n' ∉ v) (hT : goodTail T) :
    valueTokenMatch (v ++ T) = valueTokenMatch v := by
  have hhead : ∀ c, T.head? = some c → (!pySpace c) = false := by
    rcases hT with rfl | ⟨t', rfl, _, _⟩
    · intro c h; simp at h
    · intro c h
      obtain rfl : '\n' = c := by simpa using h
      rfl
  unfold valueTokenMatch
  simp only [takeWhile_append_not_head _ _ _ hhead]
  by_cases hr0 : (v.takeWhile (fun c => !pySpace c)).length = 0
  · simp [hr0]
  · have hrle : (v.takeWhile (fun c => !pySpace c)).length ≤ v.length :=
      (List.takeWhile_sublist _).length_le
    have hdrop : (v ++ T).drop (v.takeWhile (fun c => !pySpace c)).length
        = v.drop (v.takeWhile (fun c => !pySpace c)).length ++ T :=
      List.drop_append_of_le_length hrle
    have hnl' : '\n' ∉ v.drop (v.takeWhile (fun c => !pySpace c)).length :=
      fun h => hv (List.mem_of_mem_drop h)
    simp only [hr0, if_false]
    rw [hdrop, tailSpacesEnd_spec _ _ hnl' hT, tailSpacesEnd_no_nl hnl']

theorem valueTokenMatch_no_nl_some {v : List Char} {n : Nat} (hv : '\n' ∉ v)
    (h : valueTokenMatch v = some n) : n = v.length := by
  unfold valueTokenMatch at h
  by_cases hr0 : (v.takeWhile (fun c => !pySpace c)).length = 0
  · simp [hr0] at h
  · have hrle : (v.takeWhile (fun c => !pySpace c)).length ≤ v.length :=
      (List.takeWhile_sublist _).length_le
    have hnl' : '\n' ∉ v.drop (v.takeWhile (fun c => !pySpace c)).length :=
      fun hh => hv (List.mem_of_mem_drop hh)
    simp only [hr0, if_false, tailSpacesEnd_no_nl hnl'] at h
    by_cases hall : (v.drop (v.takeWhile (fun c => !pySpace c)).length).all pySpace
    · rw [if_pos hall] at h
      simp only [Option.map_some', Option.some.injEq] at h
      rw [← h, List.length_drop]
      omega
    · rw [if_neg hall] at h
      simp at h

theorem valueTokenMatch_pos {v : List Char} {n : Nat}
    (h : valueTokenMatch v = some n) : 1 ≤ n := by
  unfold valueTokenMatch at h
  by_cases hr0 : (v.takeWhile (fun c => !pySpace c)).length = 0
  · simp [hr0] at h
  · simp only [hr0, if_false] at h
    obtain ⟨k, _, rfl⟩ := Option.map_eq_some'.mp h
    omega

theorem valueMatch_cons (c : Char) (rest : List Char) :
    valueMatch (c :: rest) =
      if c = '"' then
        match splitQuote rest with
        | some (inside, after) =>
          match tailSpacesEnd after with
          | some k => some (2 + inside.length + k)
          | none => valueTokenMatch (c :: rest)
        | none => valueTokenMatch (c :: rest)
      else valueTokenMatch (c :: rest) := rfl

theorem valueMatch_append (v T : List Char) (hv : '\n' ∉ v) (hT : goodTail T)
    (hnd : ∀ rest, v = '"' :: rest → '"' ∈ rest) :
    valueMatch (v ++ T) = valueMatch v := by
  cases v with
  | nil =>
    rcases hT with rfl | ⟨t', rfl, _, _⟩
    · rfl
    · show valueMatch ('\n' :: t') = none
      rw [valueMatch_cons, if_neg (by decide)]
      have h1 : ('\n' :: t').takeWhile (fun c => !pySpace c) = [] := by
        rw [List.takeWhile_cons]
        simp [pySpace]
      unfold valueTokenMatch
      rw [h1]
      simp
  | cons c rest =>
    by_cases hc : c = '"'
    · subst hc
      have hq : '"' ∈ rest := hnd rest rfl
      obtain ⟨i, a, hsp⟩ := splitQuote_isSome_of_mem hq
      obtain ⟨hstruct, hni⟩ := splitQuote_eq hsp
      have hna : '\n' ∉ a := fun h =>
        hv (List.mem_cons_of_mem _ (hstruct ▸ List.mem_append.mpr
          (Or.inr (List.mem_cons_of_mem _ h))))
      have hsp' : splitQuote (rest ++ T) = some (i, a ++ T) := by
        rw [hstruct, List.append_assoc, List.cons_append]
        exact splitQuote_no_quote i hni (a ++ T)
      show valueMatch ('"' :: (rest ++ T)) = valueMatch ('"' :: rest)
      rw [valueMatch_cons, valueMatch_cons, if_pos rfl, if_pos rfl]
      simp only [hsp, hsp', tailSpacesEnd_spec _ _ hna hT, tailSpacesEnd_no_nl hna]
      by_cases hall : a.all pySpace
      · simp [hall]
      · simp only [hall, Bool.false_eq_true, if_false]
        exact valueTokenMatch_append _ _ hv hT
    · show valueMatch (c :: (rest ++ T)) = valueMatch (c :: rest)
      rw [valueMatch_cons, valueMatch_cons, if_neg hc, if_neg hc]
      exact valueTokenMatch_append _ _ hv hT

theorem valueMatch_no_nl_some {v : List Char} {n : Nat} (hv : '\n' ∉ v)
    (h : valueMatch v = some n) : n = v.length := by
  cases v with
  | nil => simp [valueMatch] at h
  | cons c rest =>
    by_cases hc : c = '"'
    · subst hc
      rw [valueMatch_cons, if_pos rfl] at h
      cases hsp : splitQuote rest with
      | none =>
        simp only [hsp] at h
        exact valueTokenMatch_no_nl_some hv h
      | some p =>
        obtain ⟨i, a⟩ := p
        simp only [hsp] at h
        obtain ⟨hstruct, _⟩ := splitQuote_eq hsp
        have hna : '\n' ∉ a := fun hh =>
          hv (List.mem_cons_of_mem _ (hstruct ▸ List.mem_append.mpr
            (Or.inr (List.mem_cons_of_mem _ hh))))
        rw [tailSpacesEnd_no_nl hna] at h
        by_cases hall : a.all pySpace
        · simp only [if_pos hall, Option.some.injEq] at h
          rw [← h, List.length_cons, hstruct]
          simp
          omega
        · simp only [if_neg hall] at h
          exact valueTokenMatch_no_nl_some hv h
    · rw [valueMatch_cons, if_neg hc] at h
      exact valueTokenMatch_no_nl_some hv h

theorem valueMatch_pos {v : List Char} {n : Nat} (h : valueMatch v = some n) :
    1 ≤ n := by
  cases v with
  | nil => simp [valueMatch] at h
  | cons c rest =>
    by_cases hc : c = '"'
    · subst hc
      rw [valueMatch_cons, if_pos rfl] at h
      cases hsp : splitQuote rest with
      | none => simp only [hsp] at h; exact valueTokenMatch_pos h
      | some p =>
        obtain ⟨i, a⟩ := p
        simp only [hsp] at h
        cases hts : tailSpacesEnd a with
        | none => simp only [hts] at h; exact valueTokenMatch_pos h
        | some k =>
          simp only [hts, Option.some.injEq] at h
          omega
    · rw [valueMatch_cons, if_neg hc] at h
      exact valueTokenMatch_pos h

/-! ## Safe lines and the behaviour of `matchAt` inside safe content

A *safe* line is one on which the multi-line pattern behaves line-locally:
it is not whitespace-only (else a neighbouring match's `^\s*` or `\s*$`
absorbs it), it is not a valueless `KW`-line (else `\s*` after the keyword
crosses the newline and picks up a value from the next line), it has no
dangling opening quote after the keyword (else `"[^"]*"` spans lines to the
next quote), and it contains no newline (it is a genuine single line).
-/

/-- Whitespace-only (the empty line included). -/
def wsOnly (l : List Char) : Bool := l.all pySpace

/-- `KW` followed by nothing but whitespace on the same line. -/
def valuelessDirective (kw l : List Char) : Bool :=
  let t1 := l.drop (leadSpaces l)
  kw.isPrefixOf t1 && wsOnly (t1.drop kw.length)

/-- `KW` whose value starts with an opening quote that is never closed on
the same line. -/
def danglingQuote (kw l : List Char) : Bool :=
  let t1 := l.drop (leadSpaces l)
  kw.isPrefixOf t1 &&
    (let t2 := t1.drop kw.length
     let t3 := t2.drop (leadSpaces t2)
     (t3.head? == some '"') && !t3.tail.elem '"')

/-- A line on which the multi-line directive pattern acts line-locally. -/
def lineSafe (kw l : List Char) : Bool :=
  !wsOnly l && !valuelessDirective kw l && !danglingQuote kw l && !l.elem '\n'

/-- Keyword well-formedness: nonempty with no whitespace characters
(both `webroot:` and `root:` qualify). -/
def kwOk (kw : List Char) : Prop := kw ≠ [] ∧ ∀ c ∈ kw, pySpace c = false

theorem lineSafe_no_nl {kw l : List Char} (h : lineSafe kw l = true) : '\n' ∉ l := by
  unfold lineSafe at h
  simp only [Bool.and_eq_true, Bool.not_eq_true'] at h
  intro hmem
  rw [← List.elem_iff] at hmem
  rw [h.2] at hmem
  cases hmem

theorem lineSafe_not_wsOnly {kw l : List Char} (h : lineSafe kw l = true) :
    wsOnly l = false := by
  unfold lineSafe at h
  simp only [Bool.and_eq_true, Bool.not_eq_true'] at h
  exact h.1.1.1

theorem lineSafe_ne_nil {kw l : List Char} (h : lineSafe kw l = true) : l ≠ [] := by
  intro hnil
  subst hnil
  have := lineSafe_not_wsOnly h
  simp [wsOnly] at this

theorem kwOk_no_nl {kw : List Char} (h : kwOk kw) : '\n' ∉ kw := by
  intro hmem
  have := h.2 '\n' hmem
  simp [pySpace] at this

theorem goodTail_shape {T : List Char} (h : goodTail T) :
    T = [] ∨ T.head? = some '\n' := by
  rcases h with rfl | ⟨t', rfl, _, _⟩
  · exact Or.inl rfl
  · exact Or.inr rfl

theorem tailSpacesEnd_le {u : List Char} {k : Nat} (h : tailSpacesEnd u = some k) :
    k ≤ u.length := by
  have hmem := List.mem_of_find?_eq_some h
  rw [List.mem_reverse, List.mem_range] at hmem
  have : k ≤ leadSpaces u := Nat.lt_succ_iff.mp hmem
  exact le_trans this ((List.takeWhile_sublist _).length_le)

theorem valueMatch_le {v : List Char} {n : Nat} (h : valueMatch v = some n) :
    n ≤ v.length := by
  cases v with
  | nil => simp [valueMatch] at h
  | cons c rest =>
    by_cases hc : c = '"'
    · subst hc
      rw [valueMatch_cons, if_pos rfl] at h
      cases hsp : splitQuote rest with
      | none =>
        simp only [hsp] at h
        obtain ⟨hr0, k, hk, rfl⟩ : ∃ _ : True, ∃ k,
            tailSpacesEnd (('"' :: rest).drop
              (('"' :: rest).takeWhile (fun c => !pySpace c)).length) = some k ∧
            n = (('"' :: rest).takeWhile (fun c => !pySpace c)).length + k := by
          unfold valueTokenMatch at h
          by_cases hz : (('"' :: rest).takeWhile (fun c => !pySpace c)).length = 0
          · simp [hz] at h
          · simp only [hz, if_false] at h
            obtain ⟨k, hk, hn⟩ := Option.map_eq_some'.mp h
            exact ⟨trivial, k, hk, hn.symm⟩
        have h1 := (List.takeWhile_sublist (l := '"' :: rest)
          (fun c => !pySpace c)).length_le
        have h2 := tailSpacesEnd_le hk
        rw [List.length_drop] at h2
        omega
      | some p =>
        obtain ⟨i, a⟩ := p
        simp only [hsp] at h
        obtain ⟨hstruct, _⟩ := splitQuote_eq hsp
        cases hts : tailSpacesEnd a with
        | none =>
          simp only [hts] at h
          have h1 := (List.takeWhile_sublist (l := '"' :: rest)
            (fun c => !pySpace c)).length_le
          unfold valueTokenMatch at h
          by_cases hz : (('"' :: rest).takeWhile (fun c => !pySpace c)).length = 0
          · simp [hz] at h
          · simp only [hz, if_false] at h
            obtain ⟨k, hk, hn⟩ := Option.map_eq_some'.mp h
            have h2 := tailSpacesEnd_le hk
            rw [List.length_drop] at h2
            omega
        | some k =>
          simp only [hts, Option.some.injEq] at h
          have h2 := tailSpacesEnd_le hts
          subst hstruct
          simp only [List.length_cons, List.length_append, List.length_cons]
          omega
    · rw [valueMatch_cons, if_neg hc] at h
      unfold valueTokenMatch at h
      by_cases hz : ((c :: rest).takeWhile (fun c => !pySpace c)).length = 0
      · simp [hz] at h
      · simp only [hz, if_false] at h
        obtain ⟨k, hk, hn⟩ := Option.map_eq_some'.mp h
        have h1 := (List.takeWhile_sublist (l := c :: rest)
          (fun c => !pySpace c)).length_le
        have h2 := tailSpacesEnd_le hk
        rw [List.length_drop] at h2
        omega

theorem leadSpaces_append_not_all (x T : List Char) (hx : x.all pySpace = false) :
    leadSpaces (x ++ T) = leadSpaces x := by
  unfold leadSpaces
  rw [takeWhile_append_not_all _ _ _ hx]

theorem matchAt_eq (kw t : List Char) :
    matchAt kw t =
      if kw.isPrefixOf (t.drop (leadSpaces t)) then
        (valueMatch (((t.drop (leadSpaces t)).drop kw.length).drop
            (leadSpaces ((t.drop (leadSpaces t)).drop kw.length)))).map
          (fun n => leadSpaces t + kw.length
            + leadSpaces ((t.drop (leadSpaces t)).drop kw.length) + n)
      else none := rfl

theorem matchAt_pos {kw t : List Char} {n : Nat} (h : matchAt kw t = some n) :
    1 ≤ n := by
  rw [matchAt_eq] at h
  by_cases hp : kw.isPrefixOf (t.drop (leadSpaces t))
  · rw [if_pos hp] at h
    obtain ⟨m, hm, rfl⟩ := Option.map_eq_some'.mp h
    have := valueMatch_pos hm
    omega
  · rw [if_neg hp] at h
    cases h

theorem matchAt_le {kw t : List Char} {n : Nat} (h : matchAt kw t = some n) :
    n ≤ t.length := by
  rw [matchAt_eq] at h
  by_cases hp : kw.isPrefixOf (t.drop (leadSpaces t))
  · rw [if_pos hp] at h
    obtain ⟨m, hm, rfl⟩ := Option.map_eq_some'.mp h
    have h1 : leadSpaces t ≤ t.length := (List.takeWhile_sublist _).length_le
    have h2 : kw.length ≤ (t.drop (leadSpaces t)).length :=
      (List.isPrefixOf_iff_prefix.mp hp).length_le
    have h3 : leadSpaces ((t.drop (leadSpaces t)).drop kw.length)
        ≤ ((t.drop (leadSpaces t)).drop kw.length).length :=
      (List.takeWhile_sublist _).length_le
    have h4 := valueMatch_le hm
    simp only [List.length_drop] at h2 h3 h4
    omega
  · rw [if_neg hp] at h
    cases h

theorem matchAt_no_nl_some {kw t : List Char} {n : Nat} (hnl : '\n' ∉ t)
    (h : matchAt kw t = some n) : n = t.length := by
  rw [matchAt_eq] at h
  by_cases hp : kw.isPrefixOf (t.drop (leadSpaces t))
  · rw [if_pos hp] at h
    obtain ⟨m, hm, rfl⟩ := Option.map_eq_some'.mp h
    have hnl3 : '\n' ∉ ((t.drop (leadSpaces t)).drop kw.length).drop
        (leadSpaces ((t.drop (leadSpaces t)).drop kw.length)) := fun hmem =>
      hnl (List.mem_of_mem_drop (List.mem_of_mem_drop (List.mem_of_mem_drop hmem)))
    have hlen := valueMatch_no_nl_some hnl3 hm
    have h1 : leadSpaces t ≤ t.length := (List.takeWhile_sublist _).length_le
    have h2 : kw.length ≤ (t.drop (leadSpaces t)).length :=
      (List.isPrefixOf_iff_prefix.mp hp).length_le
    have h3 : leadSpaces ((t.drop (leadSpaces t)).drop kw.length)
        ≤ ((t.drop (leadSpaces t)).drop kw.length).length :=
      (List.takeWhile_sublist _).length_le
    simp only [List.length_drop] at h2 h3 hlen
    omega
  · rw [if_neg hp] at h
    cases h

/-- On a safe line followed by a good tail, the anchored multi-line match
behaves exactly as on the line alone. -/
theorem matchAt_append (kw l T : List Char) (hkw : kwOk kw)
    (hl : lineSafe kw l = true) (hT : goodTail T) :
    matchAt kw (l ++ T) = matchAt kw l := by
  have hws : wsOnly l = false := lineSafe_not_wsOnly hl
  have hnl : '\n' ∉ l := lineSafe_no_nl hl
  have hTs := goodTail_shape hT
  have hs1 : leadSpaces (l ++ T) = leadSpaces l :=
    leadSpaces_append_not_all _ _ hws
  have hs1le : leadSpaces l ≤ l.length := (List.takeWhile_sublist _).length_le
  have hd1 : (l ++ T).drop (leadSpaces l) = l.drop (leadSpaces l) ++ T :=
    List.drop_append_of_le_length hs1le
  have hpre : kw.isPrefixOf (l.drop (leadSpaces l) ++ T)
      = kw.isPrefixOf (l.drop (leadSpaces l)) :=
    isPrefixOf_append_nl kw (kwOk_no_nl hkw) _ _ hTs
  rw [matchAt_eq, matchAt_eq, hs1, hd1, hpre]
  by_cases hp : kw.isPrefixOf (l.drop (leadSpaces l))
  · rw [if_pos hp, if_pos hp]
    have hkwle : kw.length ≤ (l.drop (leadSpaces l)).length :=
      (List.isPrefixOf_iff_prefix.mp hp).length_le
    have hd2 : (l.drop (leadSpaces l) ++ T).drop kw.length
        = (l.drop (leadSpaces l)).drop kw.length ++ T :=
      List.drop_append_of_le_length hkwle
    -- the after-keyword remainder is not all-whitespace (no valueless line)
    have hvl : wsOnly ((l.drop (leadSpaces l)).drop kw.length) = false := by
      have h := hl
      unfold lineSafe valuelessDirective at h
      simp only [Bool.and_eq_true, Bool.not_eq_true'] at h
      have h2 := h.1.1.2
      rw [Bool.and_eq_false_iff] at h2
      rcases h2 with h2 | h2
      · rw [hp] at h2; cases h2
      · exact h2
    have hs2 : leadSpaces ((l.drop (leadSpaces l)).drop kw.length ++ T)
        = leadSpaces ((l.drop (leadSpaces l)).drop kw.length) :=
      leadSpaces_append_not_all _ _ hvl
    have hs2le : leadSpaces ((l.drop (leadSpaces l)).drop kw.length)
        ≤ ((l.drop (leadSpaces l)).drop kw.length).length :=
      (List.takeWhile_sublist _).length_le
    have hd3 : ((l.drop (leadSpaces l)).drop kw.length ++ T).drop
          (leadSpaces ((l.drop (leadSpaces l)).drop kw.length))
        = ((l.drop (leadSpaces l)).drop kw.length).drop
            (leadSpaces ((l.drop (leadSpaces l)).drop kw.length)) ++ T :=
      List.drop_append_of_le_length hs2le
    rw [hd2, hs2, hd3]
    have hnl3 : '\n' ∉ ((l.drop (leadSpaces l)).drop kw.length).drop
        (leadSpaces ((l.drop (leadSpaces l)).drop kw.length)) := fun hmem =>
      hnl (List.mem_of_mem_drop (List.mem_of_mem_drop (List.mem_of_mem_drop hmem)))
    have hnd : ∀ rest, ((l.drop (leadSpaces l)).drop kw.length).drop
        (leadSpaces ((l.drop (leadSpaces l)).drop kw.length)) = '"' :: rest →
        '"' ∈ rest := by
      intro rest hrest
      have h := hl
      unfold lineSafe danglingQuote at h
      simp only [Bool.and_eq_true, Bool.not_eq_true'] at h
      have h3 := h.1.2
      rw [Bool.and_eq_false_iff] at h3
      rcases h3 with h3 | h3
      · rw [hp] at h3; cases h3
      · rw [Bool.and_eq_false_iff] at h3
        rcases h3 with h3 | h3
        · rw [hrest] at h3
          simp at h3
        · rw [hrest] at h3
          simp only [List.tail_cons, Bool.not_eq_false'] at h3
          exact List.elem_iff.mp h3
    rw [valueMatch_append _ _ hnl3 hT hnd]
  · rw [if_neg hp, if_neg hp]

/-! ## Scanner lemmas for `subnGo` -/

theorem subnGo_nil (kw repl : List Char) (fuel : Nat) (b : Bool) :
    subnGo kw repl fuel b [] = ([], 0) := by
  cases fuel <;> cases b <;> rfl

theorem subnGo_fuel_irrel (kw repl : List Char) :
    ∀ (f1 : Nat) (t : List Char) (f2 : Nat) (b : Bool),
    t.length ≤ f1 → t.length ≤ f2 →
    subnGo kw repl f1 b t = subnGo kw repl f2 b t := by
  intro f1
  induction f1 with
  | zero =>
    intro t f2 b h1 _
    obtain rfl : t = [] := List.length_eq_zero.mp (Nat.le_zero.mp h1)
    rw [subnGo_nil, subnGo_nil]
  | succ f1 ih =>
    intro t f2 b h1 h2
    cases t with
    | nil => rw [subnGo_nil, subnGo_nil]
    | cons c cs =>
      cases f2 with
      | zero => simp at h2
      | succ f2 =>
        have hcs1 : cs.length ≤ f1 := by simp at h1; omega
        have hcs2 : cs.length ≤ f2 := by simp at h2; omega
        cases b with
        | false =>
          simp only [subnGo]
          rw [ih cs f2 (c == '\n') hcs1 hcs2]
        | true =>
          cases hm : matchAt kw (c :: cs) with
          | none =>
            simp only [subnGo, hm]
            rw [ih cs f2 (c == '\n') hcs1 hcs2]
          | some n =>
            have hn1 := matchAt_pos hm
            have hn2 := matchAt_le hm
            simp only [List.length_cons] at hn2
            have hr1 : ((c :: cs).drop n).length ≤ f1 := by
              simp only [List.length_drop, List.length_cons]
              omega
            have hr2 : ((c :: cs).drop n).length ≤ f2 := by
              simp only [List.length_drop, List.length_cons]
              omega
            simp only [subnGo, hm]
            rw [ih ((c :: cs).drop n) f2 (((c :: cs).take n).getLast? == some '\n')
              hr1 hr2]

theorem subnGo_false_no_nl (kw repl : List Char) :
    ∀ (x : List Char) (fuel : Nat), '\n' ∉ x → x.length ≤ fuel →
    subnGo kw repl fuel false x = (x, 0) := by
  intro x
  induction x with
  | nil => intro fuel _ _; exact subnGo_nil kw repl fuel false
  | cons c cs ih =>
    intro fuel hnl hf
    cases fuel with
    | zero => simp at hf
    | succ fuel =>
      have hc : (c == '\n') = false :=
        beq_eq_false_iff_ne.mpr (fun h => hnl (h ▸ List.mem_cons_self _ _))
      have hcs : '\n' ∉ cs := fun h => hnl (List.mem_cons_of_mem _ h)
      simp only [subnGo, hc]
      rw [ih fuel hcs (by simp at hf; omega)]

theorem subnGo_false_append_nl (kw repl : List Char) :
    ∀ (x t : List Char) (fuel : Nat), '\n' ∉ x → x.length + 1 + t.length ≤ fuel →
    subnGo kw repl fuel false (x ++ '\n' :: t)
      = (x ++ '\n' :: (subnGo kw repl t.length true t).1,
         (subnGo kw repl t.length true t).2) := by
  intro x
  induction x with
  | nil =>
    intro t fuel _ hf
    cases fuel with
    | zero => omega
    | succ fuel =>
      simp only [List.nil_append, subnGo, beq_self_eq_true]
      rw [subnGo_fuel_irrel kw repl fuel t t.length true (by omega) le_rfl]
  | cons c cs ih =>
    intro t fuel hnl hf
    cases fuel with
    | zero => simp at hf
    | succ fuel =>
      have hc : (c == '\n') = false :=
        beq_eq_false_iff_ne.mpr (fun h => hnl (h ▸ List.mem_cons_self _ _))
      have hcs : '\n' ∉ cs := fun h => hnl (List.mem_cons_of_mem _ h)
      simp only [List.cons_append, subnGo, hc, List.append_eq]
      rw [ih t fuel hcs (by simp at hf ⊢; omega)]

/-! ## The scanner on safe line-structured content -/

/-- Join lines with newlines (no trailing newline). -/
def interLines : List (List Char) → List Char
  | [] => []
  | [l] => l
  | l :: rest => l ++ '\n' :: interLines rest

theorem interLines_cons₂ (l : List Char) (L : List (List Char)) (h : L ≠ []) :
    interLines (l :: L) = l ++ '\n' :: interLines L := by
  cases L with
  | nil => exact absurd rfl h
  | cons a L' => rfl

theorem goodTail_of_safeHead (kw : List Char) (L : List (List Char)) (hne : L ≠ [])
    (hsafe : ∀ l ∈ L, lineSafe kw l = true) :
    goodTail ('\n' :: interLines L) := by
  cases L with
  | nil => exact absurd rfl hne
  | cons l L' =>
    have hl := hsafe l (List.mem_cons_self _ _)
    have hws : l.all pySpace = false := lineSafe_not_wsOnly hl
    have hnl : '\n' ∉ l := lineSafe_no_nl hl
    refine Or.inr ⟨interLines (l :: L'), rfl, ?_, ?_⟩
    · -- the leading whitespace run stops inside the first line
      cases L' with
      | nil =>
        show leadSpaces l < l.length
        exact takeWhile_length_lt _ _ hws
      | cons l2 L'' =>
        rw [interLines_cons₂ l (l2 :: L'') (by simp)]
        rw [leadSpaces_append_not_all _ _ hws]
        calc leadSpaces l < l.length := takeWhile_length_lt _ _ hws
          _ ≤ (l ++ '\n' :: interLines (l2 :: L'')).length := by simp
    · -- and contains no newline
      cases L' with
      | nil =>
        show '\n' ∉ l.takeWhile pySpace
        exact fun h => hnl ((List.takeWhile_sublist _).subset h)
      | cons l2 L'' =>
        rw [interLines_cons₂ l (l2 :: L'') (by simp)]
        rw [takeWhile_append_not_all _ _ _ hws]
        exact fun h => hnl ((List.takeWhile_sublist _).subset h)

theorem getLast_beq_nl_false {l : List Char} (hne : l ≠ []) (hnl : '\n' ∉ l) :
    (l.getLast? == some '\n') = false := by
  rw [List.getLast?_eq_getLast l hne]
  apply beq_eq_false_iff_ne.mpr
  intro h
  have : l.getLast hne = '\n' := by simpa using h
  exact hnl (this ▸ List.getLast_mem hne)

/-- The scanner on safe line-structured content acts line by line: every
line matching the pattern is replaced by `repl`, all other lines are kept,
and the count is the number of matching lines. -/
theorem subnGo_interLines (kw repl : List Char) (hkw : kwOk kw) :
    ∀ (L : List (List Char)) (fuel : Nat),
    (∀ l ∈ L, lineSafe kw l = true) → (interLines L).length ≤ fuel →
    subnGo kw repl fuel true (interLines L)
      = (interLines (L.map (fun l => if (matchAt kw l).isSome then repl else l)),
         (L.filter (fun l => (matchAt kw l).isSome)).length) := by
  intro L
  induction L with
  | nil =>
    intro fuel _ _
    simp [interLines, subnGo_nil]
  | cons l L' ih =>
    intro fuel hsafe hfuel
    have hl := hsafe l (List.mem_cons_self _ _)
    have hlnil : l ≠ [] := lineSafe_ne_nil hl
    have hlnl : '\n' ∉ l := lineSafe_no_nl hl
    obtain ⟨lc, lcs, rfl⟩ : ∃ c cs, l = c :: cs := by
      cases l with
      | nil => exact absurd rfl hlnil
      | cons c cs => exact ⟨c, cs, rfl⟩
    have hlc : (lc == '\n') = false :=
      beq_eq_false_iff_ne.mpr (fun h => hlnl (h ▸ List.mem_cons_self _ _))
    cases L' with
    | nil =>
      -- single line
      show subnGo kw repl fuel true (lc :: lcs) = _
      simp only [interLines, List.length_cons] at hfuel
      cases fuel with
      | zero => omega
      | succ fuel =>
        cases hm : matchAt kw (lc :: lcs) with
        | none =>
          simp only [subnGo, hm, hlc]
          rw [subnGo_false_no_nl kw repl lcs fuel
            (fun h => hlnl (List.mem_cons_of_mem _ h)) (by omega)]
          simp [interLines, List.filter, hm]
        | some n =>
          have hn := matchAt_no_nl_some hlnl hm
          simp only [List.length_cons] at hn
          simp only [subnGo, hm]
          rw [hn]
          have htake : (lc :: lcs).take (lcs.length + 1) = lc :: lcs := by
            apply List.take_of_length_le
            simp
          have hdrop : (lc :: lcs).drop (lcs.length + 1) = [] := by
            apply List.drop_of_length_le
            simp
          rw [htake, hdrop, subnGo_nil]
          simp [interLines, List.filter, hm]
    | cons l2 L'' =>
      have hL'ne : (l2 :: L'') ≠ [] := by simp
      have hsafe' : ∀ x ∈ l2 :: L'', lineSafe kw x = true :=
        fun x hx => hsafe x (List.mem_cons_of_mem _ hx)
      have hgt : goodTail ('\n' :: interLines (l2 :: L'')) :=
        goodTail_of_safeHead kw (l2 :: L'') hL'ne hsafe'
      rw [interLines_cons₂ _ _ hL'ne]
      have hmm := matchAt_append kw (lc :: lcs) ('\n' :: interLines (l2 :: L''))
        hkw hl hgt
      simp only [interLines_cons₂ _ _ hL'ne, List.length_append,
        List.length_cons] at hfuel
      cases fuel with
      | zero => simp at hfuel
      | succ fuel =>
        cases hm : matchAt kw (lc :: lcs) with
        | none =>
          rw [hm] at hmm
          simp only [List.cons_append, subnGo, List.append_eq] at hmm ⊢
          rw [hmm]
          rw [hlc,
            subnGo_false_append_nl kw repl lcs (interLines (l2 :: L''))
              fuel (fun h => hlnl (List.mem_cons_of_mem _ h)) (by omega)]
          rw [ih (interLines (l2 :: L'')).length hsafe' le_rfl]
          simp only [List.map_cons, List.filter_cons, hm, Option.isSome_none,
            Bool.false_eq_true, if_false]
          rw [interLines_cons₂ (lc :: lcs) _ (by simp)]
          simp
        | some n =>
          rw [hm] at hmm
          have hn := matchAt_no_nl_some hlnl hm
          simp only [List.length_cons] at hn
          simp only [List.cons_append, List.append_eq] at hmm
          simp only [List.cons_append, subnGo, List.append_eq, hmm]
          rw [hn]
          have heq : lc :: (lcs ++ '\n' :: interLines (l2 :: L''))
              = (lc :: lcs) ++ '\n' :: interLines (l2 :: L'') := by simp
          have htake : (lc :: (lcs ++ '\n' :: interLines (l2 :: L''))).take
              (lcs.length + 1) = lc :: lcs := by
            rw [heq]
            exact List.take_left' (by simp)
          have hdrop : (lc :: (lcs ++ '\n' :: interLines (l2 :: L''))).drop
              (lcs.length + 1) = '\n' :: interLines (l2 :: L'') := by
            rw [heq]
            exact List.drop_left' (by simp)
          rw [htake, hdrop, getLast_beq_nl_false (by simp) hlnl]
          have happ := subnGo_false_append_nl kw repl [] (interLines (l2 :: L''))
            fuel (by simp) (by simp only [List.length_nil]; omega)
          simp only [List.nil_append] at happ
          rw [happ]
          rw [ih (interLines (l2 :: L'')).length hsafe' le_rfl]
          simp only [List.map_cons, List.filter_cons, hm, Option.isSome_some,
            if_true]
          rw [interLines_cons₂ repl _ (by simp)]
          simp

/-! ## `patch_directive` on safe content -/

theorem pySubn_interLines (kw repl : List Char) (hkw : kwOk kw)
    (L : List (List Char)) (hsafe : ∀ l ∈ L, lineSafe kw l = true) :
    pySubn kw repl (interLines L)
      = (interLines (L.map (fun l => if (matchAt kw l).isSome then repl else l)),
         (L.filter (fun l => (matchAt kw l).isSome)).length) := by
  unfold pySubn
  exact subnGo_interLines kw repl hkw L _ hsafe (by omega)

theorem directiveLine_parts (kw value : List Char) (hkw : kwOk kw) :
    leadSpaces (directiveLine kw value) = 0 ∧
    kw.isPrefixOf (directiveLine kw value) = true ∧
    (directiveLine kw value).drop kw.length = ' ' :: '"' :: (value ++ ['"']) ∧
    leadSpaces (' ' :: '"' :: (value ++ ['"'])) = 1 := by
  obtain ⟨hne, hns⟩ := hkw
  refine ⟨?_, ?_, ?_, ?_⟩
  · cases hk : kw with
    | nil => exact absurd hk hne
    | cons k kw' =>
      have hkp : pySpace k = false := hns k (hk ▸ List.mem_cons_self _ _)
      unfold directiveLine leadSpaces
      simp [List.cons_append, List.takeWhile_cons, hkp]
  · exact List.isPrefixOf_iff_prefix.mpr ⟨_, rfl⟩
  · unfold directiveLine
    rw [List.drop_left' rfl]
  · unfold leadSpaces
    rw [List.takeWhile_cons]
    simp only [show pySpace ' ' = true from rfl, if_true, List.takeWhile_cons]
    simp [show pySpace '"' = false from rfl]

theorem directiveLine_matchAt (kw value : List Char) (hkw : kwOk kw)
    (hq : '"' ∉ value) :
    matchAt kw (directiveLine kw value) = some (directiveLine kw value).length := by
  obtain ⟨h0, hpre, hdrop, h1⟩ := directiveLine_parts kw value hkw
  rw [matchAt_eq, h0]
  simp only [List.drop_zero]
  rw [if_pos hpre, hdrop, h1]
  have hsq : splitQuote (value ++ ['"']) = some (value, []) := by
    have := splitQuote_no_quote value hq []
    simpa using this
  have hd1 : (' ' :: '"' :: (value ++ ['"'])).drop 1 = '"' :: (value ++ ['"']) := rfl
  rw [hd1, valueMatch_cons, if_pos rfl]
  simp only [hsq, show tailSpacesEnd [] = some 0 from rfl, Option.map_some',
    Option.some.injEq]
  unfold directiveLine
  simp
  omega

theorem directiveLine_safe (kw value : List Char) (hkw : kwOk kw)
    (hq : '"' ∉ value) (hnl : '\n' ∉ value) :
    lineSafe kw (directiveLine kw value) = true := by
  obtain ⟨h0, hpre, hdrop, h1⟩ := directiveLine_parts kw value hkw
  have hqmem : '"' ∈ directiveLine kw value := by
    unfold directiveLine
    simp
  unfold lineSafe
  simp only [Bool.and_eq_true, Bool.not_eq_true']
  refine ⟨⟨⟨?_, ?_⟩, ?_⟩, ?_⟩
  · -- not whitespace-only
    rcases hall : wsOnly (directiveLine kw value) with _ | _
    · rfl
    · exfalso
      have := List.all_eq_true.mp hall '"' hqmem
      simp [pySpace] at this
  · -- not a valueless directive line
    unfold valuelessDirective
    rw [h0]
    simp only [List.drop_zero, hdrop]
    rw [Bool.and_eq_false_iff]
    right
    rcases hall : wsOnly (' ' :: '"' :: (value ++ ['"'])) with _ | _
    · rfl
    · exfalso
      have := List.all_eq_true.mp hall '"'
        (List.mem_cons_of_mem _ (List.mem_cons_self _ _))
      simp [pySpace] at this
  · -- no dangling quote: the closing quote is on the same line
    unfold danglingQuote
    rw [h0]
    simp only [List.drop_zero, hdrop, h1]
    rw [Bool.and_eq_false_iff]
    right
    have hd1 : (' ' :: '"' :: (value ++ ['"'])).drop 1 = '"' :: (value ++ ['"']) := rfl
    rw [hd1]
    rw [Bool.and_eq_false_iff]
    right
    simp only [List.tail_cons, Bool.not_eq_false']
    exact List.elem_iff.mpr (List.mem_append.mpr (Or.inr (List.mem_cons_self _ _)))
  · -- no newline
    rcases helem : List.elem '\n' (directiveLine kw value) with _ | _
    · rfl
    · exfalso
      have hmem := List.elem_iff.mp helem
      unfold directiveLine at hmem
      rcases List.mem_append.mp hmem with h | h
      · have := hkw.2 '\n' h
        simp [pySpace] at this
      · rcases List.mem_cons.mp h with h' | h'
        · cases h'
        · rcases List.mem_cons.mp h' with h'' | h''
          · cases h''
          · rcases List.mem_append.mp h'' with h3 | h3
            · exact hnl h3
            · rcases List.mem_cons.mp h3 with h4 | h4
              · cases h4
              · cases h4

theorem interLines_ne_nil (kw : List Char) (L : List (List Char)) (hne : L ≠ [])
    (hsafe : ∀ l ∈ L, lineSafe kw l = true) : interLines L ≠ [] := by
  cases L with
  | nil => exact absurd rfl hne
  | cons l L' =>
    have hl := lineSafe_ne_nil (hsafe l (List.mem_cons_self _ _))
    cases L' with
    | nil => exact hl
    | cons l2 L'' =>
      rw [interLines_cons₂ _ _ (by simp)]
      simp only [ne_eq, List.append_eq_nil]
      intro ⟨h, _⟩
      exact hl h

theorem interLines_getLast?_ne_nl (kw : List Char) :
    ∀ (L : List (List Char)), L ≠ [] → (∀ l ∈ L, lineSafe kw l = true) →
    (interLines L).getLast? ≠ some '\n' := by
  intro L
  induction L with
  | nil => intro h _; exact absurd rfl h
  | cons l L' ih =>
    intro _ hsafe
    have hl := hsafe l (List.mem_cons_self _ _)
    have hlne := lineSafe_ne_nil hl
    have hlnl := lineSafe_no_nl hl
    cases L' with
    | nil =>
      show (interLines [l]).getLast? ≠ some '\n'
      have hb := getLast_beq_nl_false hlne hlnl
      intro h
      have h' : l.getLast? = some '\n' := h
      rw [h'] at hb
      simp at hb
    | cons l2 L'' =>
      have hsafe' : ∀ x ∈ l2 :: L'', lineSafe kw x = true :=
        fun x hx => hsafe x (List.mem_cons_of_mem _ hx)
      have hILne : interLines (l2 :: L'') ≠ [] :=
        interLines_ne_nil kw _ (by simp) hsafe'
      rw [interLines_cons₂ _ _ (by simp),
        List.getLast?_append_of_ne_nil _ (by simp),
        show ('\n' :: interLines (l2 :: L'')) = ['\n'] ++ interLines (l2 :: L'')
          from rfl,
        List.getLast?_append_of_ne_nil _ hILne]
      exact ih (by simp) hsafe'

/-- Main lemma toward C6: on content made of safe lines, the
directive patch acts line-locally: if no line matches, the directive line is
appended (preceded by a newline, followed by a newline) and every existing
line is kept; if some line matches, exactly the matching lines are replaced
by the directive line and every other line is preserved. -/
theorem patch_directive_spec (kw value : List Char) (L : List (List Char))
    (hkw : kwOk kw) (hq : '"' ∉ value) (hLne : L ≠ [])
    (hsafe : ∀ l ∈ L, lineSafe kw l = true) :
    ((∀ l ∈ L, matchAt kw l = none) →
      patch_directive kw value (interLines L)
        = interLines L ++ '\n' :: (directiveLine kw value ++ ['\n'])) ∧
    ((∃ l ∈ L, (matchAt kw l).isSome) →
      patch_directive kw value (interLines L)
        = interLines (L.map (fun l =>
            if (matchAt kw l).isSome then directiveLine kw value else l))) := by
  constructor
  · intro hnone
    simp only [patch_directive]
    rw [pySubn_interLines kw _ hkw L hsafe]
    have hmap : L.map (fun l => if (matchAt kw l).isSome
        then directiveLine kw value else l) = L := by
      have : L.map (fun l => if (matchAt kw l).isSome
          then directiveLine kw value else l) = L.map id :=
        List.map_congr_left (fun a ha => by simp [hnone a ha])
      simpa using this
    have hfil : L.filter (fun l => (matchAt kw l).isSome) = [] := by
      rw [List.filter_eq_nil]
      intro a ha
      simp [hnone a ha]
    rw [hmap, hfil]
    simp only [List.length_nil, if_pos rfl]
    rw [if_neg (interLines_getLast?_ne_nl kw L hLne hsafe)]
    simp
  · rintro ⟨l0, hl0, hm0⟩
    simp only [patch_directive]
    rw [pySubn_interLines kw _ hkw L hsafe]
    have hfil : L.filter (fun l => (matchAt kw l).isSome) ≠ [] :=
      List.ne_nil_of_mem (List.mem_filter.mpr ⟨hl0, hm0⟩)
    have : (L.filter (fun l => (matchAt kw l).isSome)).length ≠ 0 := by
      simpa [List.length_eq_zero] using hfil
    simp only [this, if_false]

/-- Main lemma toward C2: on safe content that already contains a matching
directive line, the directive patch is idempotent. -/
theorem patch_directive_idem (kw value : List Char) (L : List (List Char))
    (hkw : kwOk kw) (hq : '"' ∉ value) (hnl : '\n' ∉ value) (hLne : L ≠ [])
    (hsafe : ∀ l ∈ L, lineSafe kw l = true)
    (hmatch : ∃ l ∈ L, (matchAt kw l).isSome) :
    patch_directive kw value (patch_directive kw value (interLines L))
      = patch_directive kw value (interLines L) := by
  have h1 := (patch_directive_spec kw value L hkw hq hLne hsafe).2 hmatch
  set L2 := L.map (fun l => if (matchAt kw l).isSome then directiveLine kw value else l)
    with hL2
  have hL2ne : L2 ≠ [] := by
    rw [hL2]
    simp only [ne_eq, List.map_eq_nil]
    exact hLne
  have hsafe2 : ∀ l ∈ L2, lineSafe kw l = true := by
    intro x hx
    rw [hL2] at hx
    obtain ⟨a, ha, rfl⟩ := List.mem_map.mp hx
    by_cases hma : (matchAt kw a).isSome
    · simp only [hma, if_true]
      exact directiveLine_safe kw value hkw hq hnl
    · simp only [hma, if_false]
      exact hsafe a ha
  have hmatch2 : ∃ l ∈ L2, (matchAt kw l).isSome := by
    obtain ⟨l0, hl0, hm0⟩ := hmatch
    refine ⟨directiveLine kw value, ?_, ?_⟩
    · rw [hL2]
      refine List.mem_map.mpr ⟨l0, hl0, ?_⟩
      simp [hm0]
    · rw [directiveLine_matchAt kw value hkw hq]
      rfl
  have h2 := (patch_directive_spec kw value L2 hkw hq hL2ne hsafe2).2 hmatch2
  rw [h1, h2]
  congr 1
  have : L2.map (fun l => if (matchAt kw l).isSome then directiveLine kw value else l)
      = L2.map id := by
    apply List.map_congr_left
    intro x hx
    rw [hL2] at hx
    obtain ⟨a, ha, rfl⟩ := List.mem_map.mp hx
    by_cases hma : (matchAt kw a).isSome
    · simp only [hma, if_true, id]
      rw [directiveLine_matchAt kw value hkw hq]
      rfl
    · simp only [hma, if_false, id]
      simp only [Bool.not_eq_true] at hma
      simp [hma]
  simpa using this

/-! ## Generic lemmas for the unanchored scanner `subAllGo` -/

theorem subAllGo_nil (m : List Char → Option Nat) (repl : List Char) (fuel : Nat) :
    subAllGo m repl fuel [] = [] := by
  cases fuel <;> rfl

theorem subAllGo_none_step (m : List Char → Option Nat) (repl : List Char)
    (fuel : Nat) (c : Char) (cs : List Char) (hm : m (c :: cs) = none) :
    subAllGo m repl (fuel + 1) (c :: cs) = c :: subAllGo m repl fuel cs := by
  simp only [subAllGo, hm]

theorem subAllGo_match_step (m : List Char → Option Nat) (repl : List Char)
    (fuel : Nat) (c : Char) (cs : List Char) (n : Nat) (hm : m (c :: cs) = some n) :
    subAllGo m repl (fuel + 1) (c :: cs)
      = repl ++ subAllGo m repl fuel ((c :: cs).drop n) := by
  simp only [subAllGo, hm]

theorem nil_isPrefixOf (x : List Char) : ([] : List Char).isPrefixOf x = true := by
  cases x <;> rfl

theorem isPrefixOf_nil_iff {a : List Char} (h : a.isPrefixOf ([] : List Char) = true) :
    a = [] := by
  cases a with
  | nil => rfl
  | cons c cs => cases h

theorem isPrefixOf_false_of_lt {a b : List Char} (h : b.length < a.length) :
    a.isPrefixOf b = false := by
  rcases hc : a.isPrefixOf b with _ | _
  · rfl
  · exact absurd ((List.isPrefixOf_iff_prefix.mp hc).length_le) (by omega)

theorem subAllGo_fuel_irrel (m : List Char → Option Nat) (repl : List Char)
    (hm : ∀ t n, m t = some n → 1 ≤ n) :
    ∀ (f1 : Nat) (t : List Char) (f2 : Nat), t.length ≤ f1 → t.length ≤ f2 →
    subAllGo m repl f1 t = subAllGo m repl f2 t := by
  intro f1
  induction f1 with
  | zero =>
    intro t f2 h1 _
    obtain rfl : t = [] := List.length_eq_zero.mp (Nat.le_zero.mp h1)
    rw [subAllGo_nil, subAllGo_nil]
  | succ f1 ih =>
    intro t f2 h1 h2
    cases t with
    | nil => rw [subAllGo_nil, subAllGo_nil]
    | cons c cs =>
      cases f2 with
      | zero => simp at h2
      | succ f2 =>
        cases hmc : m (c :: cs) with
        | none =>
          rw [subAllGo_none_step _ _ _ _ _ hmc, subAllGo_none_step _ _ _ _ _ hmc,
            ih cs f2 (by simpa using h1) (by simpa using h2)]
        | some n =>
          have hn := hm _ _ hmc
          simp only [List.length_cons] at h1 h2
          rw [subAllGo_match_step _ _ _ _ _ _ hmc, subAllGo_match_step _ _ _ _ _ _ hmc,
            ih ((c :: cs).drop n) f2
              (by simp only [List.length_drop, List.length_cons]; omega)
              (by simp only [List.length_drop, List.length_cons]; omega)]

theorem subAllGo_copy_head (m : List Char → Option Nat) (repl : List Char) :
    ∀ (k fuel : Nat) (t : List Char), k ≤ t.length → t.length ≤ fuel →
    (∀ i, i < k → m (t.drop i) = none) →
    subAllGo m repl fuel t = t.take k ++ subAllGo m repl (fuel - k) (t.drop k) := by
  intro k
  induction k with
  | zero => intro fuel t _ _ _; simp
  | succ k ih =>
    intro fuel t hk hf hnone
    cases t with
    | nil => simp at hk
    | cons c cs =>
      cases fuel with
      | zero => simp at hf
      | succ fuel =>
        have h0 : m (c :: cs) = none := hnone 0 (by omega)
        rw [subAllGo_none_step _ _ _ _ _ h0]
        rw [ih fuel cs (by simpa using hk) (by simpa using hf)
          (fun i hi => hnone (i + 1) (by omega))]
        have hfe : fuel + 1 - (k + 1) = fuel - k := by omega
        simp only [List.take_succ_cons, List.drop_succ_cons, List.cons_append, hfe]

/-! ## `str.replace` (literal substitution): the result contains no further
occurrence of the pattern, under decidable border conditions that hold for
the concrete `accept-download` strings. -/

theorem litMatch_some {pat t : List Char} {n : Nat} (h : litMatch pat t = some n) :
    pat.isPrefixOf t = true ∧ n = pat.length := by
  unfold litMatch at h
  by_cases hp : pat.isPrefixOf t
  · rw [if_pos hp] at h
    exact ⟨hp, (Option.some.inj h).symm⟩
  · rw [if_neg hp] at h
    cases h

theorem litMatch_none {pat t : List Char} (h : litMatch pat t = none) :
    pat.isPrefixOf t = false := by
  unfold litMatch at h
  by_cases hp : pat.isPrefixOf t
  · rw [if_pos hp] at h; cases h
  · exact Bool.eq_false_iff.mpr hp

theorem litMatch_pos {pat : List Char} (hpat : pat ≠ []) :
    ∀ t n, litMatch pat t = some n → 1 ≤ n := by
  intro t n h
  obtain ⟨_, rfl⟩ := litMatch_some h
  cases pat with
  | nil => exact absurd rfl hpat
  | cons p ps => simp

theorem isPrefixOf_nil_false {pat : List Char} (hpat : pat ≠ []) :
    pat.isPrefixOf ([] : List Char) = false := by
  cases pat with
  | nil => exact absurd rfl hpat
  | cons p ps => rfl

theorem replace_partial_transfer (pat repl : List Char)
    (hseam : ∀ j, 1 ≤ j → j < pat.length →
      (pat.drop j).isPrefixOf repl = false ∧ repl.isPrefixOf (pat.drop j) = false) :
    ∀ (fuel : Nat) (t : List Char) (j : Nat), 1 ≤ j → t.length ≤ fuel →
    (pat.drop j).isPrefixOf (subAllGo (litMatch pat) repl fuel t) = true →
    (pat.drop j).isPrefixOf t = true := by
  intro fuel
  induction fuel with
  | zero =>
    intro t j _ h1 hp
    obtain rfl : t = [] := List.length_eq_zero.mp (Nat.le_zero.mp h1)
    rw [subAllGo_nil] at hp
    rw [isPrefixOf_nil_iff hp]
    exact nil_isPrefixOf []
  | succ fuel ih =>
    intro t j hj h1 hp
    by_cases hjlen : pat.length ≤ j
    · rw [List.drop_eq_nil_of_le hjlen]
      exact nil_isPrefixOf t
    · push_neg at hjlen
      cases t with
      | nil =>
        rw [subAllGo_nil] at hp
        rw [isPrefixOf_nil_iff hp]
        exact nil_isPrefixOf []
      | cons c cs =>
        cases hmc : litMatch pat (c :: cs) with
        | some n =>
          rw [subAllGo_match_step _ _ _ _ _ _ hmc] at hp
          rcases isPrefixOf_append_cases hp with h | h
          · rw [(hseam j hj hjlen).1] at h; cases h
          · rw [(hseam j hj hjlen).2] at h; cases h
        | none =>
          rw [subAllGo_none_step _ _ _ _ _ hmc] at hp
          rw [List.drop_eq_getElem_cons hjlen] at hp ⊢
          simp only [List.isPrefixOf, Bool.and_eq_true] at hp ⊢
          refine ⟨hp.1, ?_⟩
          by_cases hj1 : pat.length ≤ j + 1
          · rw [show pat.drop (j + 1) = [] from List.drop_eq_nil_of_le hj1]
            exact nil_isPrefixOf cs
          · exact ih cs (j + 1) (by omega) (by simpa using h1) hp.2

theorem replace_noOcc (pat repl : List Char) (hpat : pat ≠ [])
    (hseam : ∀ j, 1 ≤ j → j < pat.length →
      (pat.drop j).isPrefixOf repl = false ∧ repl.isPrefixOf (pat.drop j) = false)
    (hseam2 : ∀ i, i < repl.length →
      pat.isPrefixOf (repl.drop i) = false ∧ (repl.drop i).isPrefixOf pat = false) :
    ∀ (fuel : Nat) (t : List Char), t.length ≤ fuel →
    ∀ i, pat.isPrefixOf ((subAllGo (litMatch pat) repl fuel t).drop i) = false := by
  intro fuel
  induction fuel with
  | zero =>
    intro t h1 i
    obtain rfl : t = [] := List.length_eq_zero.mp (Nat.le_zero.mp h1)
    rw [subAllGo_nil]
    simp only [List.drop_nil]
    exact isPrefixOf_nil_false hpat
  | succ fuel ih =>
    intro t h1 i
    cases t with
    | nil =>
      rw [subAllGo_nil]
      simp only [List.drop_nil]
      exact isPrefixOf_nil_false hpat
    | cons c cs =>
      cases hmc : litMatch pat (c :: cs) with
      | some n =>
        obtain ⟨hpre, rfl⟩ := litMatch_some hmc
        have hplen : 1 ≤ pat.length := List.length_pos.mpr hpat
        rw [subAllGo_match_step _ _ _ _ _ _ hmc]
        by_cases hi : i < repl.length
        · rw [List.drop_append_of_le_length (by omega)]
          exact isPrefixOf_refuted_append (hseam2 i hi).1 (hseam2 i hi).2
        · push_neg at hi
          rw [show i = repl.length + (i - repl.length) from by omega,
            List.drop_append]
          exact ih ((c :: cs).drop pat.length)
            (by simp only [List.length_drop, List.length_cons] at h1 ⊢; omega) _
      | none =>
        rw [subAllGo_none_step _ _ _ _ _ hmc]
        cases i with
        | succ i' =>
          simp only [List.drop_succ_cons]
          exact ih cs (by simpa using h1) i'
        | zero =>
          simp only [List.drop_zero]
          rcases hc : pat.isPrefixOf (c :: subAllGo (litMatch pat) repl fuel cs)
            with _ | _
          · rfl
          · exfalso
            cases hpat0 : pat with
            | nil => exact hpat hpat0
            | cons p ps =>
              rw [hpat0] at hc
              simp only [List.isPrefixOf, Bool.and_eq_true] at hc
              have hps : ps.isPrefixOf cs = true := by
                by_cases hlen1 : pat.length ≤ 1
                · have : ps = [] := by
                    rw [hpat0] at hlen1
                    simp at hlen1
                    exact hlen1
                  rw [this]
                  exact nil_isPrefixOf cs
                · have ht := replace_partial_transfer pat repl hseam fuel cs 1
                    (by omega) (by simpa using h1)
                  rw [hpat0] at ht
                  simp only [List.drop_succ_cons, List.drop_zero] at ht
                  exact ht hc.2
              have : pat.isPrefixOf (c :: cs) = true := by
                rw [hpat0]
                simp only [List.isPrefixOf, Bool.and_eq_true]
                exact ⟨hc.1, hps⟩
              rw [litMatch_none hmc] at this
              cases this

theorem subAll_lit_id (pat repl : List Char) (hpat : pat ≠ []) :
    ∀ (fuel : Nat) (t : List Char), t.length ≤ fuel →
    (∀ i, pat.isPrefixOf (t.drop i) = false) →
    subAllGo (litMatch pat) repl fuel t = t := by
  intro fuel
  induction fuel with
  | zero =>
    intro t h1 _
    obtain rfl : t = [] := List.length_eq_zero.mp (Nat.le_zero.mp h1)
    exact subAllGo_nil _ _ _
  | succ fuel ih =>
    intro t h1 hno
    cases t with
    | nil => exact subAllGo_nil _ _ _
    | cons c cs =>
      have h0 : litMatch pat (c :: cs) = none := by
        unfold litMatch
        rw [show pat.isPrefixOf (c :: cs) = false from by simpa using hno 0]
        rfl
      rw [subAllGo_none_step _ _ _ _ _ h0]
      rw [ih cs (by simpa using h1) (fun i => by simpa using hno (i + 1))]

/-! ## Digit strings and the `render-thread-count` matcher -/

theorem digitChar_isDigit (k : Nat) (hk : k < 10) :
    (Char.ofNat (48 + k)).isDigit = true := by
  interval_cases k <;> decide

theorem pySpace_of_digit {c : Char} (h : c.isDigit = true) : pySpace c = false := by
  rcases hps : pySpace c with _ | _
  · rfl
  · exfalso
    unfold pySpace at hps
    simp only [Bool.or_eq_true, beq_iff_eq] at hps
    rcases hps with ((((rfl | rfl) | rfl) | rfl) | rfl) | rfl <;>
      exact absurd h (by decide)

theorem natDigitsGo_mem : ∀ (fuel n : Nat) (acc : List Char) (c : Char),
    c ∈ natDigitsGo fuel n acc → c ∈ acc ∨ c.isDigit = true := by
  intro fuel
  induction fuel with
  | zero => intro n acc c h; exact Or.inl h
  | succ fuel ih =>
    intro n acc c h
    unfold natDigitsGo at h
    by_cases hn : n < 10
    · rw [if_pos hn] at h
      rcases List.mem_cons.mp h with rfl | h
      · exact Or.inr (digitChar_isDigit _ (Nat.mod_lt _ (by norm_num)))
      · exact Or.inl h
    · rw [if_neg hn] at h
      rcases ih (n / 10) _ c h with h | h
      · rcases List.mem_cons.mp h with rfl | h
        · exact Or.inr (digitChar_isDigit _ (Nat.mod_lt _ (by norm_num)))
        · exact Or.inl h
      · exact Or.inr h

theorem natDigits_all_digit (n : Nat) : ∀ c ∈ natDigits n, c.isDigit = true := by
  intro c hc
  rcases natDigitsGo_mem (n + 1) n [] c hc with h | h
  · cases h
  · exact h

theorem natDigitsGo_ne_nil : ∀ (fuel n : Nat) (acc : List Char), acc ≠ [] →
    natDigitsGo fuel n acc ≠ [] := by
  intro fuel
  induction fuel with
  | zero => intro n acc h; exact h
  | succ fuel ih =>
    intro n acc h
    unfold natDigitsGo
    by_cases hn : n < 10
    · rw [if_pos hn]; simp
    · rw [if_neg hn]
      exact ih (n / 10) _ (by simp)

theorem natDigits_ne_nil (n : Nat) : natDigits n ≠ [] := by
  unfold natDigits natDigitsGo
  by_cases hn : n < 10
  · rw [if_pos hn]; simp
  · rw [if_neg hn]
    exact natDigitsGo_ne_nil n (n / 10) _ (by simp)

theorem threadMatchLen_none_of_not_lit {t : List Char}
    (h : tLit.isPrefixOf t = false) : threadMatchLen t = none := by
  unfold threadMatchLen
  rw [h]
  rfl

theorem threadMatchLen_some_iff {t : List Char} (hpre : tLit.isPrefixOf t = true) :
    threadMatchLen t
      = (if (((t.drop tLit.length).drop
            (leadSpaces (t.drop tLit.length))).takeWhile Char.isDigit).length = 0
        then none
        else some (tLit.length + leadSpaces (t.drop tLit.length)
          + (((t.drop tLit.length).drop
              (leadSpaces (t.drop tLit.length))).takeWhile Char.isDigit).length)) := by
  unfold threadMatchLen leadSpaces
  rw [hpre]
  simp

theorem threadMatchLen_pos : ∀ t n, threadMatchLen t = some n → 1 ≤ n := by
  intro t n h
  by_cases hpre : tLit.isPrefixOf t
  · rw [threadMatchLen_some_iff hpre] at h
    by_cases hz : (((t.drop tLit.length).drop
        (leadSpaces (t.drop tLit.length))).takeWhile Char.isDigit).length = 0
    · rw [if_pos hz] at h; cases h
    · rw [if_neg hz] at h
      have hn := Option.some.inj h
      have hlit : tLit.length = 20 := by decide
      omega
  · rw [threadMatchLen_none_of_not_lit (Bool.eq_false_iff.mpr hpre)] at h
    cases h

/-! ## Thread-count rewrite: transfer lemmas and idempotence -/

/-- Digit-status of the first character after the leading whitespace run —
exactly what decides whether `\s*\d+` can continue after the literal. -/
def afterSpacesDigit (u : List Char) : Bool :=
  match (u.drop (leadSpaces u)).head? with
  | some c => c.isDigit
  | none => false

theorem afterSpacesDigit_cons_space {c : Char} {u : List Char}
    (h : pySpace c = true) : afterSpacesDigit (c :: u) = afterSpacesDigit u := by
  unfold afterSpacesDigit leadSpaces
  rw [List.takeWhile_cons, if_pos h]
  simp

theorem afterSpacesDigit_cons_nonspace {c : Char} {u : List Char}
    (h : pySpace c = false) : afterSpacesDigit (c :: u) = c.isDigit := by
  unfold afterSpacesDigit leadSpaces
  rw [List.takeWhile_cons, if_neg (by simp [h])]
  simp

theorem takeWhile_length_zero_iff {p : Char → Bool} (x : List Char) :
    (x.takeWhile p).length = 0 ↔
      (match x.head? with | some c => p c | none => false) = false := by
  cases x with
  | nil => simp
  | cons c cs =>
    rw [List.takeWhile_cons]
    by_cases h : p c <;> simp [h]

theorem threadMatchLen_none_iff_asd {t : List Char} (hpre : tLit.isPrefixOf t = true) :
    (threadMatchLen t = none ↔ afterSpacesDigit (t.drop tLit.length) = false) := by
  rw [threadMatchLen_some_iff hpre]
  by_cases hz : (((t.drop tLit.length).drop
      (leadSpaces (t.drop tLit.length))).takeWhile Char.isDigit).length = 0
  · rw [if_pos hz]
    simp only [true_iff]
    have := (takeWhile_length_zero_iff ((t.drop tLit.length).drop
      (leadSpaces (t.drop tLit.length)))).mp hz
    unfold afterSpacesDigit
    cases hh : ((t.drop tLit.length).drop (leadSpaces (t.drop tLit.length))).head? with
    | none => rfl
    | some c => rw [hh] at this; exact this
  · rw [if_neg hz]
    constructor
    · intro hcon; cases hcon
    · intro hcon
      exfalso
      apply hz
      rw [takeWhile_length_zero_iff]
      unfold afterSpacesDigit at hcon
      cases hh : ((t.drop tLit.length).drop (leadSpaces (t.drop tLit.length))).head? with
      | none => rfl
      | some c => rw [hh] at hcon; exact hcon

theorem head_after_takeWhile {p : Char → Bool} (x : List Char) {c : Char}
    (h : (x.drop (x.takeWhile p).length).head? = some c) : p c = false := by
  rw [List.head?_drop] at h
  by_cases hlen : (x.takeWhile p).length < x.length
  · obtain ⟨c', hc', hp⟩ := takeWhile_stop p x hlen
    rw [hc'] at h
    obtain rfl : c' = c := by simpa using h
    exact hp
  · push_neg at hlen
    rw [List.getElem?_eq_none (by omega)] at h
    cases h

theorem threadMatchLen_some_lit {t : List Char} {n : Nat}
    (h : threadMatchLen t = some n) : tLit.isPrefixOf t = true := by
  by_cases hpre : tLit.isPrefixOf t
  · exact hpre
  · rw [threadMatchLen_none_of_not_lit (Bool.eq_false_iff.mpr hpre)] at h
    cases h

theorem threadMatchLen_maximal {t : List Char} {n : Nat}
    (h : threadMatchLen t = some n) :
    ∀ c, (t.drop n).head? = some c → c.isDigit = false := by
  intro c hc
  have hpre := threadMatchLen_some_lit h
  rw [threadMatchLen_some_iff hpre] at h
  by_cases hz : (((t.drop tLit.length).drop
      (leadSpaces (t.drop tLit.length))).takeWhile Char.isDigit).length = 0
  · rw [if_pos hz] at h; cases h
  · rw [if_neg hz] at h
    obtain rfl := (Option.some.inj h).symm
    set x := (t.drop tLit.length).drop (leadSpaces (t.drop tLit.length)) with hx
    have hd : x.drop ((x.takeWhile Char.isDigit).length)
        = t.drop (tLit.length + leadSpaces (t.drop tLit.length)
            + (x.takeWhile Char.isDigit).length) := by
      rw [hx, List.drop_drop, List.drop_drop]
      congr 1
      omega
    rw [← hd] at hc
    exact head_after_takeWhile x hc

theorem threadRepl_head (N : Nat) : ∃ rr, threadRepl N = 'r' :: rr := by
  refine ⟨"ender-thread-count: ".toList ++ natDigits N, ?_⟩
  unfold threadRepl
  rw [show tLitSp = 'r' :: "ender-thread-count: ".toList from by decide]
  rfl

theorem threadRepl_length (N : Nat) : 21 ≤ (threadRepl N).length := by
  unfold threadRepl
  have h1 : tLitSp.length = 21 := by decide
  have h2 : 1 ≤ (natDigits N).length :=
    List.length_pos.mpr (natDigits_ne_nil N)
  simp only [List.length_append]
  omega

theorem threadScan_asd (N : Nat) :
    ∀ (fuel : Nat) (u : List Char), u.length ≤ fuel →
    afterSpacesDigit (subAllGo threadMatchLen (threadRepl N) fuel u)
      = afterSpacesDigit u := by
  intro fuel
  induction fuel with
  | zero =>
    intro u h1
    obtain rfl : u = [] := List.length_eq_zero.mp (Nat.le_zero.mp h1)
    rw [subAllGo_nil]
  | succ fuel ih =>
    intro u h1
    cases u with
    | nil => rw [subAllGo_nil]
    | cons c cs =>
      cases hmc : threadMatchLen (c :: cs) with
      | some n =>
        rw [subAllGo_match_step _ _ _ _ _ _ hmc]
        have hpre := threadMatchLen_some_lit hmc
        have hc : c = 'r' := by
          rw [show tLit = 'r' :: "ender-thread-count:".toList from by decide] at hpre
          simp only [List.isPrefixOf, Bool.and_eq_true, beq_iff_eq] at hpre
          exact hpre.1.symm
        obtain ⟨rr, hrr⟩ := threadRepl_head N
        rw [hrr, List.cons_append, hc]
        rw [afterSpacesDigit_cons_nonspace (by decide),
          afterSpacesDigit_cons_nonspace (by decide)]
      | none =>
        rw [subAllGo_none_step _ _ _ _ _ hmc]
        by_cases hsp : pySpace c
        · rw [afterSpacesDigit_cons_space hsp, afterSpacesDigit_cons_space hsp]
          exact ih cs (by simpa using h1)
        · rw [afterSpacesDigit_cons_nonspace (Bool.eq_false_iff.mpr hsp),
            afterSpacesDigit_cons_nonspace (Bool.eq_false_iff.mpr hsp)]

theorem threadScan_head_nondigit (N : Nat) (fuel : Nat) (u : List Char)
    (h : ∀ c, u.head? = some c → c.isDigit = false) :
    ∀ c, (subAllGo threadMatchLen (threadRepl N) fuel u).head? = some c →
      c.isDigit = false := by
  intro c hc
  cases u with
  | nil => rw [subAllGo_nil] at hc; cases hc
  | cons a cs =>
    cases fuel with
    | zero =>
      have : (a :: cs).head? = some c := hc
      obtain rfl : a = c := by simpa using this
      exact h a rfl
    | succ fuel =>
      cases hmc : threadMatchLen (a :: cs) with
      | some n =>
        rw [subAllGo_match_step _ _ _ _ _ _ hmc] at hc
        obtain ⟨rr, hrr⟩ := threadRepl_head N
        rw [hrr, List.cons_append] at hc
        obtain rfl : 'r' = c := by simpa using hc
        decide
      | none =>
        rw [subAllGo_none_step _ _ _ _ _ hmc] at hc
        obtain rfl : a = c := by simpa using hc
        exact h a rfl

theorem tLit_drop_not_pre_tLitSp :
    ∀ j, j < 20 → 1 ≤ j → (tLit.drop j).isPrefixOf tLitSp = false := by decide

theorem tLit_drop_not_pre_tLit :
    ∀ j, j < 20 → 1 ≤ j → (tLit.drop j).isPrefixOf tLit = false := by decide

theorem threadScan_lit_transfer (N : Nat) :
    ∀ (fuel : Nat) (t : List Char) (j : Nat), 1 ≤ j → t.length ≤ fuel →
    (tLit.drop j).isPrefixOf (subAllGo threadMatchLen (threadRepl N) fuel t) = true →
    (tLit.drop j).isPrefixOf t = true := by
  intro fuel
  induction fuel with
  | zero =>
    intro t j _ h1 hp
    obtain rfl : t = [] := List.length_eq_zero.mp (Nat.le_zero.mp h1)
    rw [subAllGo_nil] at hp
    rw [isPrefixOf_nil_iff hp]
    exact nil_isPrefixOf []
  | succ fuel ih =>
    intro t j hj h1 hp
    have hlit20 : tLit.length = 20 := by decide
    by_cases hjlen : tLit.length ≤ j
    · rw [List.drop_eq_nil_of_le hjlen]
      exact nil_isPrefixOf t
    · push_neg at hjlen
      cases t with
      | nil =>
        rw [subAllGo_nil] at hp
        rw [isPrefixOf_nil_iff hp]
        exact nil_isPrefixOf []
      | cons c cs =>
        cases hmc : threadMatchLen (c :: cs) with
        | some n =>
          rw [subAllGo_match_step _ _ _ _ _ _ hmc] at hp
          rcases isPrefixOf_append_cases hp with h | h
          · unfold threadRepl at h
            rcases isPrefixOf_append_cases h with h2 | h2
            · rw [tLit_drop_not_pre_tLitSp j (by omega) hj] at h2; cases h2
            · rw [isPrefixOf_false_of_lt (a := tLitSp) (b := tLit.drop j)
                (by rw [List.length_drop]; have h21 : tLitSp.length = 21 := (by decide); omega)]
                at h2
              cases h2
          · rw [isPrefixOf_false_of_lt (a := threadRepl N) (b := tLit.drop j)
              (by rw [List.length_drop]; have := threadRepl_length N; omega)] at h
            cases h
        | none =>
          rw [subAllGo_none_step _ _ _ _ _ hmc] at hp
          rw [List.drop_eq_getElem_cons hjlen] at hp ⊢
          simp only [List.isPrefixOf, Bool.and_eq_true] at hp ⊢
          refine ⟨hp.1, ?_⟩
          by_cases hj1 : tLit.length ≤ j + 1
          · rw [show tLit.drop (j + 1) = [] from List.drop_eq_nil_of_le hj1]
            exact nil_isPrefixOf cs
          · exact ih cs (j + 1) (by omega) (by simpa using h1) hp.2

theorem threadScan_none_transfer (N : Nat) (fuel : Nat) (c : Char) (cs : List Char)
    (hf : cs.length ≤ fuel) (hnone : threadMatchLen (c :: cs) = none) :
    threadMatchLen (c :: subAllGo threadMatchLen (threadRepl N) fuel cs) = none := by
  by_cases hpre : tLit.isPrefixOf (c :: subAllGo threadMatchLen (threadRepl N) fuel cs)
  · have hsplit : tLit = 'r' :: tLit.drop 1 := by decide
    have hlit20 : tLit.length = 20 := by decide
    have hc' : ('r' == c) = true ∧
        (tLit.drop 1).isPrefixOf (subAllGo threadMatchLen (threadRepl N) fuel cs)
          = true := by
      rw [hsplit] at hpre
      simpa [List.isPrefixOf] using hpre
    obtain ⟨hc1, h1⟩ := hc'
    obtain rfl : 'r' = c := by simpa using hc1
    have hcs : (tLit.drop 1).isPrefixOf cs = true :=
      threadScan_lit_transfer N fuel cs 1 (le_refl 1) hf h1
    have hpre0 : tLit.isPrefixOf ('r' :: cs) = true := by
      rw [hsplit]
      simp only [List.isPrefixOf, Bool.and_eq_true]
      exact ⟨by decide, hcs⟩
    obtain ⟨X, hX⟩ := List.isPrefixOf_iff_prefix.mp hcs
    have h19 : 19 ≤ cs.length := by
      have := (List.isPrefixOf_iff_prefix.mp hcs).length_le
      rw [List.length_drop, hlit20] at this
      omega
    have hnm : ∀ i, i < 19 → threadMatchLen (cs.drop i) = none := by
      intro i hi
      apply threadMatchLen_none_of_not_lit
      have hieq : cs.drop i = (tLit.drop 1).drop i ++ X := by
        rw [← hX, List.drop_append_of_le_length
          (by rw [List.length_drop, hlit20]; omega)]
      rw [hieq, List.drop_drop]
      exact isPrefixOf_refuted_append
        (isPrefixOf_false_of_lt (by rw [List.length_drop]; omega))
        (tLit_drop_not_pre_tLit (1 + i) (by omega) (by omega))
    have hunroll := subAllGo_copy_head threadMatchLen (threadRepl N) 19 fuel cs
      h19 hf hnm
    have hSd : (subAllGo threadMatchLen (threadRepl N) fuel cs).drop 19
        = subAllGo threadMatchLen (threadRepl N) (fuel - 19) (cs.drop 19) := by
      rw [hunroll, List.drop_left' (by rw [List.length_take]; omega)]
    have hasd : afterSpacesDigit
        ((subAllGo threadMatchLen (threadRepl N) fuel cs).drop 19)
        = afterSpacesDigit (cs.drop 19) := by
      rw [hSd]
      exact threadScan_asd N (fuel - 19) (cs.drop 19)
        (by rw [List.length_drop]; omega)
    apply (threadMatchLen_none_iff_asd hpre).mpr
    rw [hlit20, show (20 : Nat) = 19 + 1 from rfl, List.drop_succ_cons, hasd]
    have h0 := (threadMatchLen_none_iff_asd hpre0).mp hnone
    rw [hlit20, show (20 : Nat) = 19 + 1 from rfl, List.drop_succ_cons] at h0
    exact h0
  · exact threadMatchLen_none_of_not_lit (Bool.eq_false_iff.mpr hpre)

theorem subAllGo_match_step2 (m : List Char → Option Nat) (repl : List Char)
    (fuel : Nat) (t : List Char) (n : Nat) (ht : t ≠ []) (hm : m t = some n) :
    subAllGo m repl (fuel + 1) t = repl ++ subAllGo m repl fuel (t.drop n) := by
  cases t with
  | nil => exact absurd rfl ht
  | cons c cs => exact subAllGo_match_step m repl fuel c cs n hm

theorem takeWhile_append_all {p : Char → Bool} :
    ∀ (l1 l2 : List Char), (∀ c ∈ l1, p c = true) →
    (l1 ++ l2).takeWhile p = l1 ++ l2.takeWhile p := by
  intro l1
  induction l1 with
  | nil => intro l2 _; rfl
  | cons a l ih =>
    intro l2 h
    rw [List.cons_append, List.takeWhile_cons, if_pos (h a (List.mem_cons_self a l)),
      ih l2 (fun c hc => h c (List.mem_cons_of_mem a hc)), List.cons_append]

theorem takeWhile_head_false {p : Char → Bool} (l : List Char)
    (h : ∀ c, l.head? = some c → p c = false) : l.takeWhile p = [] := by
  cases l with
  | nil => rfl
  | cons a l => rw [List.takeWhile_cons, if_neg (by simp [h a rfl])]

theorem threadRepl_match (N : Nat) (X : List Char)
    (hX : ∀ c, X.head? = some c → c.isDigit = false) :
    threadMatchLen (threadRepl N ++ X) = some (threadRepl N).length := by
  have hsplit : threadRepl N ++ X = tLit ++ (' ' :: (natDigits N ++ X)) := by
    unfold threadRepl
    rw [show tLitSp = tLit ++ [' '] from by decide]
    simp
  have hpre : tLit.isPrefixOf (threadRepl N ++ X) = true := by
    rw [hsplit]
    exact List.isPrefixOf_iff_prefix.mpr ⟨_, rfl⟩
  rw [threadMatchLen_some_iff hpre]
  have hdropLit : (threadRepl N ++ X).drop tLit.length = ' ' :: (natDigits N ++ X) := by
    rw [hsplit, List.drop_left]
  obtain ⟨d, ds, hds⟩ : ∃ d ds, natDigits N = d :: ds := by
    cases hnd : natDigits N with
    | nil => exact absurd hnd (natDigits_ne_nil N)
    | cons d ds => exact ⟨d, ds, rfl⟩
  have hdd : d.isDigit = true :=
    natDigits_all_digit N d (by rw [hds]; exact List.mem_cons_self _ _)
  have hlead : leadSpaces (' ' :: (natDigits N ++ X)) = 1 := by
    unfold leadSpaces
    rw [List.takeWhile_cons, if_pos (by decide), hds, List.cons_append,
      List.takeWhile_cons, if_neg (by simp [pySpace_of_digit hdd])]
    rfl
  have htw : ((natDigits N ++ X).takeWhile Char.isDigit) = natDigits N := by
    rw [takeWhile_append_all (natDigits N) X (natDigits_all_digit N),
      takeWhile_head_false X hX, List.append_nil]
  rw [hdropLit, hlead]
  have hdrop1 : (' ' :: (natDigits N ++ X)).drop 1 = natDigits N ++ X := rfl
  rw [hdrop1, htw]
  rw [if_neg (by simpa using natDigits_ne_nil N)]
  have hlit20 : tLit.length = 20 := by decide
  have hlitsp : tLitSp.length = 21 := by decide
  unfold threadRepl
  rw [List.length_append, hlitsp, hlit20]

theorem threadScan_fixed (N : Nat) :
    ∀ (fuel : Nat) (t : List Char), t.length ≤ fuel →
    ∀ (fuel2 : Nat), (subAllGo threadMatchLen (threadRepl N) fuel t).length ≤ fuel2 →
    subAllGo threadMatchLen (threadRepl N) fuel2
        (subAllGo threadMatchLen (threadRepl N) fuel t)
      = subAllGo threadMatchLen (threadRepl N) fuel t := by
  intro fuel
  induction fuel with
  | zero =>
    intro t h1 fuel2 _
    obtain rfl : t = [] := List.length_eq_zero.mp (Nat.le_zero.mp h1)
    rw [subAllGo_nil, subAllGo_nil]
  | succ fuel ih =>
    intro t h1 fuel2 h2
    cases t with
    | nil => rw [subAllGo_nil, subAllGo_nil]
    | cons c cs =>
      cases hmc : threadMatchLen (c :: cs) with
      | some n =>
        rw [subAllGo_match_step _ _ _ _ _ _ hmc] at h2 ⊢
        have hn1 : 1 ≤ n := threadMatchLen_pos _ _ hmc
        have hXhead : ∀ a,
            (subAllGo threadMatchLen (threadRepl N) fuel ((c :: cs).drop n)).head?
              = some a → a.isDigit = false :=
          threadScan_head_nondigit N fuel ((c :: cs).drop n)
            (threadMatchLen_maximal hmc)
        have hmatch := threadRepl_match N
          (subAllGo threadMatchLen (threadRepl N) fuel ((c :: cs).drop n)) hXhead
        have hne : threadRepl N ++
            subAllGo threadMatchLen (threadRepl N) fuel ((c :: cs).drop n) ≠ [] := by
          obtain ⟨rr, hrr⟩ := threadRepl_head N
          rw [hrr]
          simp
        cases fuel2 with
        | zero =>
          exfalso
          simp only [List.length_append] at h2
          have := threadRepl_length N
          omega
        | succ fuel2 =>
          rw [subAllGo_match_step2 _ _ fuel2 _ _ hne hmatch, List.drop_left]
          congr 1
          apply ih ((c :: cs).drop n)
            (by simp only [List.length_drop, List.length_cons] at h1 ⊢; omega)
          simp only [List.length_append] at h2
          have := threadRepl_length N
          omega
      | none =>
        rw [subAllGo_none_step _ _ _ _ _ hmc] at h2 ⊢
        have hcs : cs.length ≤ fuel := by simpa using h1
        have hnone2 := threadScan_none_transfer N fuel c cs hcs hmc
        cases fuel2 with
        | zero => simp at h2
        | succ fuel2 =>
          rw [subAllGo_none_step _ _ _ _ _ hnone2]
          congr 1
          exact ih cs hcs fuel2 (by simpa using h2)

/-! ## Idempotence of the core-settings patch -/

/-- The literal replaced in `core.conf`. -/
def accPat : List Char := "accept-download: false".toList

/-- Its replacement. -/
def accRepl : List Char := "accept-download: true".toList

theorem accPat_ne_nil : accPat ≠ [] := by decide

theorem accPat_len : accPat.length = 22 := by decide

theorem accRepl_len : accRepl.length = 21 := by decide

theorem acc_seam : ∀ j, j < 22 → 1 ≤ j →
    (accPat.drop j).isPrefixOf accRepl = false ∧
    accRepl.isPrefixOf (accPat.drop j) = false := by decide

theorem acc_seam2 : ∀ i, i < 21 →
    accPat.isPrefixOf (accRepl.drop i) = false ∧
    (accRepl.drop i).isPrefixOf accPat = false := by decide

theorem acc_seam_bounds : ∀ j, 1 ≤ j → j < accPat.length →
    (accPat.drop j).isPrefixOf accRepl = false ∧
    accRepl.isPrefixOf (accPat.drop j) = false := by
  intro j h1 h2
  exact acc_seam j (by rw [accPat_len] at h2; exact h2) h1

theorem acc_seam2_bounds : ∀ i, i < accRepl.length →
    accPat.isPrefixOf (accRepl.drop i) = false ∧
    (accRepl.drop i).isPrefixOf accPat = false := by
  intro i h
  exact acc_seam2 i (by rw [accRepl_len] at h; exact h)

theorem acc_not_pre_tLitSp : ∀ j, j < 22 → 1 ≤ j →
    (accPat.drop j).isPrefixOf tLitSp = false ∧
    tLitSp.isPrefixOf (accPat.drop j) = false := by decide

theorem threadRepl_length22 (N : Nat) : 22 ≤ (threadRepl N).length := by
  unfold threadRepl
  rw [List.length_append]
  have h1 : tLitSp.length = 21 := by decide
  have h2 := List.length_pos.mpr (natDigits_ne_nil N)
  omega

theorem accPat_not_pre_tLitSp_drop :
    ∀ i, i < 21 → accPat.isPrefixOf (tLitSp.drop i) = false := by decide

theorem tLitSp_drop_not_pre_accPat :
    ∀ i, i < 21 → (tLitSp.drop i).isPrefixOf accPat = false := by decide

theorem acc_refuted_at_threadRepl (N : Nat) (i : Nat)
    (hi : i < (threadRepl N).length) (S2 : List Char) :
    accPat.isPrefixOf ((threadRepl N).drop i ++ S2) = false := by
  have hlsp : tLitSp.length = 21 := by decide
  by_cases hi21 : i < 21
  · have hdrop : (threadRepl N).drop i = tLitSp.drop i ++ natDigits N := by
      unfold threadRepl
      rw [List.drop_append_of_le_length (by omega)]
    rw [hdrop, List.append_assoc]
    exact isPrefixOf_refuted_append (accPat_not_pre_tLitSp_drop i hi21)
      (tLitSp_drop_not_pre_accPat i hi21)
  · push_neg at hi21
    have hlen : (threadRepl N).length = 21 + (natDigits N).length := by
      unfold threadRepl
      rw [List.length_append, hlsp]
    have hdrop : (threadRepl N).drop i = (natDigits N).drop (i - 21) := by
      have he : (threadRepl N).drop i
          = (tLitSp ++ natDigits N).drop (tLitSp.length + (i - 21)) := by
        unfold threadRepl
        congr 1
        omega
      rw [he, List.drop_append]
    obtain ⟨d, rest, hdr⟩ : ∃ d rest, (natDigits N).drop (i - 21) = d :: rest := by
      cases hd : (natDigits N).drop (i - 21) with
      | nil =>
        exfalso
        have hz : ((natDigits N).drop (i - 21)).length = 0 := by rw [hd]; rfl
        rw [List.length_drop] at hz
        omega
      | cons d rest => exact ⟨d, rest, rfl⟩
    have hdd : d.isDigit = true := by
      apply natDigits_all_digit N
      have hm : d ∈ (natDigits N).drop (i - 21) := by
        rw [hdr]
        exact List.mem_cons_self _ _
      exact List.mem_of_mem_drop hm
    rw [hdrop, hdr]
    have haccsplit : accPat = 'a' :: accPat.drop 1 := by decide
    rw [haccsplit, List.cons_append]
    have had : ('a' == d) = false := by
      rcases hq : ('a' == d) with _ | _
      · rfl
      · exfalso
        have h2 : 'a' = d := by simpa using hq
        rw [← h2] at hdd
        exact absurd hdd (by decide)
    simp [List.isPrefixOf, had]

theorem threadScan_acc_transfer (N : Nat) :
    ∀ (fuel : Nat) (t : List Char) (j : Nat), 1 ≤ j → t.length ≤ fuel →
    (accPat.drop j).isPrefixOf (subAllGo threadMatchLen (threadRepl N) fuel t) = true →
    (accPat.drop j).isPrefixOf t = true := by
  intro fuel
  induction fuel with
  | zero =>
    intro t j _ h1 hp
    obtain rfl : t = [] := List.length_eq_zero.mp (Nat.le_zero.mp h1)
    rw [subAllGo_nil] at hp
    rw [isPrefixOf_nil_iff hp]
    exact nil_isPrefixOf []
  | succ fuel ih =>
    intro t j hj h1 hp
    by_cases hjlen : accPat.length ≤ j
    · rw [List.drop_eq_nil_of_le hjlen]
      exact nil_isPrefixOf t
    · push_neg at hjlen
      rw [accPat_len] at hjlen
      cases t with
      | nil =>
        rw [subAllGo_nil] at hp
        rw [isPrefixOf_nil_iff hp]
        exact nil_isPrefixOf []
      | cons c cs =>
        cases hmc : threadMatchLen (c :: cs) with
        | some n =>
          rw [subAllGo_match_step _ _ _ _ _ _ hmc] at hp
          rcases isPrefixOf_append_cases hp with h | h
          · unfold threadRepl at h
            rcases isPrefixOf_append_cases h with h2 | h2
            · rw [(acc_not_pre_tLitSp j hjlen hj).1] at h2; cases h2
            · rw [(acc_not_pre_tLitSp j hjlen hj).2] at h2; cases h2
          · rw [isPrefixOf_false_of_lt (a := threadRepl N) (b := accPat.drop j)
              (by rw [List.length_drop, accPat_len]
                  have := threadRepl_length22 N
                  omega)] at h
            cases h
        | none =>
          rw [subAllGo_none_step _ _ _ _ _ hmc] at hp
          have hjlen2 : j < accPat.length := by rw [accPat_len]; omega
          rw [List.drop_eq_getElem_cons hjlen2] at hp ⊢
          simp only [List.isPrefixOf, Bool.and_eq_true] at hp ⊢
          refine ⟨hp.1, ?_⟩
          by_cases hj1 : accPat.length ≤ j + 1
          · rw [show accPat.drop (j + 1) = [] from List.drop_eq_nil_of_le hj1]
            exact nil_isPrefixOf cs
          · exact ih cs (j + 1) (by omega) (by simpa using h1) hp.2

theorem threadScan_preserves_noAcc (N : Nat) :
    ∀ (fuel : Nat) (t : List Char), t.length ≤ fuel →
    (∀ i, accPat.isPrefixOf (t.drop i) = false) →
    ∀ i, accPat.isPrefixOf
      ((subAllGo threadMatchLen (threadRepl N) fuel t).drop i) = false := by
  intro fuel
  induction fuel with
  | zero =>
    intro t h1 _ i
    obtain rfl : t = [] := List.length_eq_zero.mp (Nat.le_zero.mp h1)
    rw [subAllGo_nil]
    simp only [List.drop_nil]
    exact isPrefixOf_nil_false accPat_ne_nil
  | succ fuel ih =>
    intro t h1 hno i
    cases t with
    | nil =>
      rw [subAllGo_nil]
      simp only [List.drop_nil]
      exact isPrefixOf_nil_false accPat_ne_nil
    | cons c cs =>
      cases hmc : threadMatchLen (c :: cs) with
      | some n =>
        rw [subAllGo_match_step _ _ _ _ _ _ hmc]
        by_cases hi : i < (threadRepl N).length
        · rw [List.drop_append_of_le_length (by omega)]
          exact acc_refuted_at_threadRepl N i hi _
        · push_neg at hi
          rw [show i = (threadRepl N).length + (i - (threadRepl N).length) from
              by omega, List.drop_append]
          have hdl : ((c :: cs).drop n).length ≤ fuel := by
            have := threadMatchLen_pos _ _ hmc
            simp only [List.length_drop, List.length_cons] at h1 ⊢
            omega
          have hno2 : ∀ k, accPat.isPrefixOf (((c :: cs).drop n).drop k) = false := by
            intro k
            rw [List.drop_drop]
            exact hno (n + k)
          exact ih ((c :: cs).drop n) hdl hno2 (i - (threadRepl N).length)
      | none =>
        rw [subAllGo_none_step _ _ _ _ _ hmc]
        cases i with
        | succ i2 =>
          simp only [List.drop_succ_cons]
          exact ih cs (by simpa using h1)
            (fun k => by simpa using hno (k + 1)) i2
        | zero =>
          simp only [List.drop_zero]
          rcases hc : accPat.isPrefixOf
              (c :: subAllGo threadMatchLen (threadRepl N) fuel cs) with _ | _
          · rfl
          · exfalso
            have haccsplit : accPat = 'a' :: accPat.drop 1 := by decide
            rw [haccsplit] at hc
            simp only [List.isPrefixOf, Bool.and_eq_true] at hc
            have hps : (accPat.drop 1).isPrefixOf cs = true :=
              threadScan_acc_transfer N fuel cs 1 (le_refl 1)
                (by simpa using h1) hc.2
            have hfull : accPat.isPrefixOf (c :: cs) = true := by
              rw [haccsplit]
              simp only [List.isPrefixOf, Bool.and_eq_true]
              exact ⟨hc.1, hps⟩
            have h0 := hno 0
            simp only [List.drop_zero] at h0
            rw [h0] at hfull
            cases hfull

theorem patch_core_idem (threads : Nat) (t : List Char) :
    patch_core threads (patch_core threads t) = patch_core threads t := by
  show sub_thread_count threads
      (replaceAll accPat accRepl
        (sub_thread_count threads (replaceAll accPat accRepl t)))
    = sub_thread_count threads (replaceAll accPat accRepl t)
  have hnoR : ∀ i, accPat.isPrefixOf ((replaceAll accPat accRepl t).drop i)
      = false := by
    intro i
    exact replace_noOcc accPat accRepl accPat_ne_nil acc_seam_bounds
      acc_seam2_bounds (t.length + 1) t (Nat.le_succ _) i
  have hnoT : ∀ i, accPat.isPrefixOf
      ((sub_thread_count threads (replaceAll accPat accRepl t)).drop i) = false := by
    intro i
    exact threadScan_preserves_noAcc threads
      ((replaceAll accPat accRepl t).length + 1) (replaceAll accPat accRepl t)
      (Nat.le_succ _) hnoR i
  have h1 : replaceAll accPat accRepl
      (sub_thread_count threads (replaceAll accPat accRepl t))
      = sub_thread_count threads (replaceAll accPat accRepl t) :=
    subAll_lit_id accPat accRepl accPat_ne_nil
      ((sub_thread_count threads (replaceAll accPat accRepl t)).length + 1)
      (sub_thread_count threads (replaceAll accPat accRepl t))
      (Nat.le_succ _) hnoT
  rw [h1]
  exact threadScan_fixed threads ((replaceAll accPat accRepl t).length + 1)
    (replaceAll accPat accRepl t) (Nat.le_succ _)
    ((sub_thread_count threads (replaceAll accPat accRepl t)).length + 1)
    (Nat.le_succ _)

/-- **C2 (amended).** The config patches applied twice with the same settings
give the same text as applied once, with the qualification the counterexample
forces: the core-settings patch (`core.conf`) is idempotent on *every*
content, while the web-root/storage-root directive patch is idempotent on
content made of safe lines among which some line already matches the
directive (on content with no matching line the append branch runs and a
second application rewrites the appended line, as the counterexample shows). -/
theorem config_patch_idempotence (threads : Nat) (kw value : List Char)
    (L : List (List Char)) (t : List Char)
    (hkw : kwOk kw) (hq : '"' ∉ value) (hnl : '\n' ∉ value)
    (hLne : L ≠ []) (hsafe : ∀ l ∈ L, lineSafe kw l = true)
    (hmatch : ∃ l ∈ L, (matchAt kw l).isSome) :
    patch_core threads (patch_core threads t) = patch_core threads t ∧
    patch_directive kw value (patch_directive kw value (interLines L))
      = patch_directive kw value (interLines L) :=
  ⟨patch_core_idem threads t,
   patch_directive_idem kw value L hkw hq hnl hLne hsafe hmatch⟩

/-- Witness for C2 at concrete inputs: two render threads, core content
`"x"`, and a one-line config already holding a `webroot:` directive. -/
theorem config_patch_idempotence_witness :
    (kwOk "webroot:".toList ∧ '"' ∉ "/w".toList ∧ '\n' ∉ "/w".toList ∧
      (["webroot: x".toList] : List (List Char)) ≠ [] ∧
      (∀ l ∈ ["webroot: x".toList], lineSafe "webroot:".toList l = true) ∧
      (∃ l ∈ ["webroot: x".toList], (matchAt "webroot:".toList l).isSome)) ∧
    (patch_core 2 (patch_core 2 "x".toList) = patch_core 2 "x".toList ∧
     patch_directive "webroot:".toList "/w".toList
        (patch_directive "webroot:".toList "/w".toList
          (interLines ["webroot: x".toList]))
      = patch_directive "webroot:".toList "/w".toList
          (interLines ["webroot: x".toList])) :=
  ⟨⟨⟨by decide, by decide⟩, by decide, by decide, by decide, by decide, by decide⟩,
   config_patch_idempotence 2 "webroot:".toList "/w".toList
     ["webroot: x".toList] "x".toList
     ⟨by decide, by decide⟩ (by decide) (by decide) (by decide) (by decide)
     (by decide)⟩

/-- **C6 (amended).** On content consisting of safe lines (no
whitespace-only line, no valueless directive line, no dangling quote): when
no line matches the directive the patch appends exactly one well-formed
directive line — preceded by a newline separating it from the kept content
and followed by a newline — and keeps every existing line; when some line
matches, exactly the matching lines are replaced by the directive line and
every other line is preserved unchanged. -/
theorem directive_patch_line_spec (kw value : List Char) (L : List (List Char))
    (hkw : kwOk kw) (hq : '"' ∉ value) (hLne : L ≠ [])
    (hsafe : ∀ l ∈ L, lineSafe kw l = true) :
    ((∀ l ∈ L, matchAt kw l = none) →
      patch_directive kw value (interLines L)
        = interLines L ++ '\n' :: (directiveLine kw value ++ ['\n'])) ∧
    ((∃ l ∈ L, (matchAt kw l).isSome) →
      patch_directive kw value (interLines L)
        = interLines (L.map (fun l =>
            if (matchAt kw l).isSome then directiveLine kw value else l))) :=
  patch_directive_spec kw value L hkw hq hLne hsafe

/-- Witness for C6 at concrete inputs: a one-line config whose line matches
the `webroot:` directive, whose patch replaces that line. -/
theorem directive_patch_line_spec_witness :
    (kwOk "webroot:".toList ∧ '"' ∉ "/w".toList ∧
      (["webroot: x".toList] : List (List Char)) ≠ [] ∧
      (∀ l ∈ ["webroot: x".toList], lineSafe "webroot:".toList l = true)) ∧
    patch_directive "webroot:".toList "/w".toList
        (interLines ["webroot: x".toList])
      = interLines ((["webroot: x".toList] : List (List Char)).map (fun l =>
          if (matchAt "webroot:".toList l).isSome
          then directiveLine "webroot:".toList "/w".toList else l)) :=
  ⟨⟨⟨by decide, by decide⟩, by decide, by decide, by decide⟩,
   (directive_patch_line_spec "webroot:".toList "/w".toList
      ["webroot: x".toList] ⟨by decide, by decide⟩ (by decide) (by decide)
      (by decide)).2
     ⟨"webroot: x".toList, by decide, by decide⟩⟩
